import Mathlib

/-!
Verification of the alignment and diff-construction engine of `fiddle.diff`.

The repository ships the test suite (`fiddle/experimental/diff_test.py`) for
this engine; the engine itself is modelled here from the specification, with
the tests pinning concrete behaviour.  Graph nodes (compound / sequence /
mapping nodes) live in an arena and are addressed by integer handles, so
"same object" comparisons become handle equality, as the design notes of the
specification recommend.  Handles of children are strictly smaller than the
handle of their parent, which makes all traversals terminate.
-/

namespace FiddleDiff

/-- Modelled from the spec: a step of a `Path` — attribute/argument slot by
name, sequence index, mapping key, or the compound node's callable-tag slot. -/
inductive PathStep where
  | attr (name : String)
  | index (i : Nat)
  | key (k : String)
  | fnOrCls
deriving DecidableEq, Repr

/-- Modelled from the spec: a `Path` is an ordered list of steps. -/
abbrev Path := List PathStep

/-- Modelled from the spec: the two buildable node classes (`Config` and
`Partial`); two compound nodes of different classes have different types. -/
inductive BuildableKind where
  | config
  | part
deriving DecidableEq, Repr

/-- A value of the object graph: either an atomic leaf (compared only by
equality, never aligned) or a handle of a memoizable node in the arena. -/
inductive Value where
  | leaf (v : Int)
  | node (h : Nat)
deriving DecidableEq, Repr

/-- The content of a memoizable node: a compound node (buildable class,
callable tag, named argument slots), a sequence, or a mapping. -/
inductive NodeContent where
  | compound (k : BuildableKind) (tag : Nat) (args : List (String × Value))
  | sequence (elts : List Value)
  | mapping (entries : List (String × Value))
deriving DecidableEq, Repr

/-- The arena of memoizable nodes; the handle of a node is its index. -/
abbrev Arena := List NodeContent

/-- The child values of a node content. -/
def contentVals : NodeContent → List Value
  | .compound _ _ args => args.map (fun a => a.2)
  | .sequence elts => elts
  | .mapping entries => entries.map (fun a => a.2)

/-- The elements of a sequence paired with their index steps, starting at
index `i`. -/
def seqSteps (i : Nat) : List Value → List (PathStep × Value)
  | [] => []
  | v :: rest => (.index i, v) :: seqSteps (i + 1) rest

/-- The child values of a node content, each with its path step. -/
def childSteps : NodeContent → List (PathStep × Value)
  | .compound _ _ args => args.map (fun a => (.attr a.1, a.2))
  | .sequence elts => seqSteps 0 elts
  | .mapping entries => entries.map (fun a => (.key a.1, a.2))

/-- A value respects the handle bound `n` when it is a leaf or a node whose
handle is strictly below `n`. -/
def valueBound (n : Nat) : Value → Bool
  | .leaf _ => true
  | .node h => h < n

/-- The keys of a list of named slots. -/
def slotKeys (l : List (String × Value)) : List String := l.map (fun a => a.1)

/-- Key lists of a node content that must not contain duplicates. -/
def contentKeysNodup : NodeContent → Bool
  | .compound _ _ args => (slotKeys args).Nodup
  | .sequence _ => true
  | .mapping entries => (slotKeys entries).Nodup

/-- Well-formed arena: every child value of the node at handle `h` is a leaf
or a node with a strictly smaller handle, and named slots have distinct
names.  Handles are assigned bottom-up at graph-construction time, so this
holds for every graph built by the external graph model. -/
def wfArena (g : Arena) : Bool :=
  (List.range g.length).all (fun h =>
    match g[h]? with
    | some c => (contentVals c).all (valueBound h) && contentKeysNodup c
    | none => true)

/-- Resolving a single path step starting from a value. -/
def stepValue (g : Arena) (v : Value) (s : PathStep) : Option Value :=
  match v with
  | .leaf _ => none
  | .node h =>
    match g[h]? with
    | none => none
    | some c =>
      match c, s with
      | .compound _ _ args, .attr n => (args.find? (fun a => a.1 == n)).map (fun a => a.2)
      | .sequence elts, .index i => elts[i]?
      | .mapping entries, .key k => (entries.find? (fun a => a.1 == k)).map (fun a => a.2)
      | _, _ => none

/-- Resolving a path from a root value, as the external graph model does. -/
def resolve (g : Arena) (v : Value) : Path → Option Value
  | [] => some v
  | s :: p => (stepValue g v s).bind (fun v2 => resolve g v2 p)

/-- All (path, value) pairs reachable from a root, enumerated pre-order with
fuel; `fuel` larger than every reachable handle makes the enumeration
complete. -/
def pvList (g : Arena) : Nat → Value → List (Path × Value)
  | 0, v => [([], v)]
  | _ + 1, .leaf x => [([], .leaf x)]
  | fuel + 1, .node h =>
    ([], .node h) ::
      (match g[h]? with
       | none => []
       | some c =>
         (childSteps c).flatMap (fun sv =>
           (pvList g fuel sv.2).map (fun pv => (sv.1 :: pv.1, pv.2))))

/-- The canonical fuel for a graph: enough for every valid handle. -/
def graphFuel (g : Arena) : Nat := g.length

/-- Handles of memoizable nodes reachable from a root (with repetitions, one
occurrence per reaching path). -/
def reachList (g : Arena) (fuel : Nat) (v : Value) : List Nat :=
  (pvList g fuel v).filterMap (fun pv =>
    match pv.2 with
    | .node h => some h
    | .leaf _ => none)

/-- All paths of a given memoizable node below a root. -/
def pathsOf (g : Arena) (fuel : Nat) (root : Value) (h : Nat) : List Path :=
  (pvList g fuel root).filterMap (fun pv =>
    if pv.2 = .node h then some pv.1 else none)

/-- The first path of a memoizable node below a root, in traversal order. -/
def firstPathOf (g : Arena) (fuel : Nat) (root : Value) (h : Nat) : Option Path :=
  ((pvList g fuel root).find? (fun pv => pv.2 == .node h)).map (fun pv => pv.1)

/-- The number of distinct positions from which a node is reachable. -/
def numPaths (g : Arena) (fuel : Nat) (root : Value) (h : Nat) : Nat :=
  (pathsOf g fuel root h).length

/-- Deep value equality with fuel, unfolding handles into their contents:
the external graph model's equality for whole subgraphs. -/
def valueEqF (g : Arena) : Nat → Value → Value → Bool
  | _, .leaf x, .leaf y => x == y
  | 0, .node _, _ => false
  | 0, _, .node _ => false
  | fuel + 1, .node h1, .node h2 =>
    match g[h1]?, g[h2]? with
    | some (.compound k1 t1 a1), some (.compound k2 t2 a2) =>
      k1 == k2 && t1 == t2 && slotKeys a1 == slotKeys a2 &&
        (a1.zip a2).all (fun pr => valueEqF g fuel pr.1.2 pr.2.2)
    | some (.sequence e1), some (.sequence e2) =>
      e1.length == e2.length && (e1.zip e2).all (fun pr => valueEqF g fuel pr.1 pr.2)
    | some (.mapping m1), some (.mapping m2) =>
      slotKeys m1 == slotKeys m2 &&
        (m1.zip m2).all (fun pr => valueEqF g fuel pr.1.2 pr.2.2)
    | _, _ => false
  | _, .leaf _, .node _ => false
  | _, .node _, .leaf _ => false

/-- Modelled from the spec: `DiffAlignment`, the bidirectional identity
correspondence between memoizable old-graph nodes and memoizable new-graph
nodes; `table` lists the aligned handle pairs in insertion order. -/
structure DiffAlignment where
  old : Value
  new : Value
  table : List (Nat × Nat)
deriving Repr

/-- `new_from_old` lookup at the handle level. -/
def newFromOld (a : DiffAlignment) (h : Nat) : Option Nat :=
  (a.table.find? (fun pr => pr.1 == h)).map (fun pr => pr.2)

/-- `old_from_new` lookup at the handle level. -/
def oldFromNew (a : DiffAlignment) (h : Nat) : Option Nat :=
  (a.table.find? (fun pr => pr.2 == h)).map (fun pr => pr.1)

/-- `is_old_value_aligned`: identity-based membership test. -/
def isOldValueAligned (a : DiffAlignment) : Value → Bool
  | .leaf _ => false
  | .node h => (newFromOld a h).isSome

/-- `is_new_value_aligned`: identity-based membership test. -/
def isNewValueAligned (a : DiffAlignment) : Value → Bool
  | .leaf _ => false
  | .node h => (oldFromNew a h).isSome

/-- Modelled from the spec: the error taxonomy of `AlignmentError`. -/
inductive AlignmentError where
  | nonMemoizableOld
  | nonMemoizableNew
  | differentTypes
  | oldAlreadyAligned
  | newAlreadyAligned
  | differentLengths
deriving DecidableEq, Repr

/-- Leaves are non-memoizable; compound/sequence/mapping nodes are
memoizable. -/
def isMemoizable : Value → Bool
  | .leaf _ => false
  | .node _ => true

/-- The runtime type of a value, used by `align`'s type check: leaves,
`Config` compounds, `Partial` compounds, sequences and mappings all have
distinct types; the callable tag of a compound is not part of its type. -/
inductive TypeTag where
  | leafT
  | configT
  | partT
  | seqT
  | mapT
deriving DecidableEq, Repr

/-- The type of a value in a graph. -/
def typeTagOf (g : Arena) : Value → TypeTag
  | .leaf _ => .leafT
  | .node h =>
    match g[h]? with
    | some (.compound .config _ _) => .configT
    | some (.compound .part _ _) => .partT
    | some (.sequence _) => .seqT
    | some (.mapping _) => .mapT
    | none => .leafT

/-- True when both values are sequences of different lengths.  The in-src
test `test_delete_dict_item` shows that mappings of different lengths are
aligned by the heuristic path phase, so the length check applies to
sequences only. -/
def seqLenMismatch (g : Arena) : Value → Value → Bool
  | .node h1, .node h2 =>
    match g[h1]?, g[h2]? with
    | some (.sequence e1), some (.sequence e2) => e1.length != e2.length
    | _, _ => false
  | _, _ => false

/-- Modelled from the spec: the validation performed by `align` before any
mutation — non-memoizable operands, type mismatch, duplicate old, duplicate
new, sequence length mismatch. -/
def validateAlign (g : Arena) (a : DiffAlignment) (oldV newV : Value) :
    Option AlignmentError :=
  if !isMemoizable oldV then some .nonMemoizableOld
  else if !isMemoizable newV then some .nonMemoizableNew
  else if typeTagOf g oldV != typeTagOf g newV then some .differentTypes
  else if isOldValueAligned a oldV then some .oldAlreadyAligned
  else if isNewValueAligned a newV then some .newAlreadyAligned
  else if seqLenMismatch g oldV newV then some .differentLengths
  else none

/-- Modelled from the spec: `align(old_value, new_value)` registers a
correspondence.  The call validates first and only then mutates, so on
failure the alignment is returned unchanged together with the error. -/
def align (g : Arena) (a : DiffAlignment) (oldV newV : Value) :
    Option AlignmentError × DiffAlignment :=
  match validateAlign g a oldV newV with
  | some e => (some e, a)
  | none =>
    match oldV, newV with
    | .node h1, .node h2 => (none, { a with table := a.table ++ [(h1, h2)] })
    | _, _ => (some .nonMemoizableOld, a)

/-- A strategy-internal attempt to align a pair: errors from `align` are
swallowed as "do not align this pair". -/
def tryAlign (g : Arena) (a : DiffAlignment) (oldV newV : Value) : DiffAlignment :=
  (align g a oldV newV).2

/-- Modelled from the spec: `align_by_id(old, new)` aligns two memoizable
nodes whenever they are literally the same node object referenced from both
the old and the new root. -/
def alignById (g : Arena) (oldRoot newRoot : Value) : DiffAlignment :=
  let fuel := graphFuel g
  let oldIds := reachList g fuel oldRoot
  (reachList g fuel newRoot).foldl
    (fun a h => if h ∈ oldIds then tryAlign g a (.node h) (.node h) else a)
    ⟨oldRoot, newRoot, []⟩

/-- The path phase of heuristic alignment: for every path reachable in both
graphs, attempt to align the two values living there, swallowing failures. -/
def alignByPathPhase (g : Arena) (a0 : DiffAlignment) : DiffAlignment :=
  (pvList g (graphFuel g) a0.old).foldl
    (fun a pv =>
      match resolve g a.new pv.1 with
      | some nv => tryAlign g a pv.2 nv
      | none => a)
    a0

/-- The equality phase of heuristic alignment: among memoizable nodes still
unaligned on both sides, align value-equal pairs, first-encountered in
traversal order on the old side, the new candidate being the first
value-equal unaligned node of the new traversal. -/
def alignByEqualityPhase (g : Arena) (a0 : DiffAlignment) : DiffAlignment :=
  let fuel := graphFuel g
  (reachList g fuel a0.old).foldl
    (fun a ho =>
      if (newFromOld a ho).isSome then a
      else
        match (reachList g fuel a.new).find?
            (fun hn => !(oldFromNew a hn).isSome && valueEqF g fuel (.node ho) (.node hn)) with
        | some hn => tryAlign g a (.node ho) (.node hn)
        | none => a)
    a0

/-- Modelled from the spec: `align_heuristically(old, new)` — identity
phase, then path phase, then equality phase, strictly ordered and additive,
each phase skipping nodes already aligned by an earlier phase. -/
def alignHeuristically (g : Arena) (oldRoot newRoot : Value) : DiffAlignment :=
  alignByEqualityPhase g (alignByPathPhase g (alignById g oldRoot newRoot))

/-- Modelled from the spec: a `Reference` points either to a path rooted at
the old graph or to an index into the diff's list of new shared values. -/
inductive Reference where
  | oldRef (p : Path)
  | newSharedRef (i : Nat)
deriving DecidableEq, Repr

/-- A value appearing in diff output: the new value rewritten recursively,
with aligned or hoisted descendants replaced by `Reference`s, and a
compound node's new callable tag as payload of the callable-slot edit. -/
inductive DiffValue where
  | leaf (v : Int)
  | ref (r : Reference)
  | callable (tag : Nat)
  | compound (k : BuildableKind) (tag : Nat) (args : List (String × DiffValue))
  | sequence (elts : List DiffValue)
  | mapping (entries : List (String × DiffValue))
deriving Repr

/-- Modelled from the spec: the tagged edit operations of a diff. -/
inductive DiffOperation where
  | modifyValue (v : DiffValue)
  | setValue (v : DiffValue)
  | deleteValue
deriving Repr

/-- Modelled from the spec: the immutable `Diff` result — a mapping from
path to edit operation plus the ordered list of new shared values. -/
structure Diff where
  changes : List (Path × DiffOperation)
  new_shared_values : List DiffValue
deriving Repr

/-- The mutable state of the diff builder while it walks the new graph:
the shared values hoisted so far, the slot index assigned to each hoisted
handle, and the changes emitted so far. -/
structure BuilderState where
  newSharedValues : List DiffValue
  slotById : List (Nat × Nat)
  changes : List (Path × DiffOperation)
deriving Repr

/-- The empty builder state. -/
def initialState : BuilderState := ⟨[], [], []⟩

/-- The slot already assigned to a hoisted handle, if any. -/
def slotOf (s : BuilderState) (h : Nat) : Option Nat :=
  (s.slotById.find? (fun pr => pr.1 == h)).map (fun pr => pr.2)

/-- Appending one emitted change. -/
def addChange (s : BuilderState) (p : Path) (op : DiffOperation) : BuilderState :=
  { s with changes := s.changes ++ [(p, op)] }

/-- State-threading conversion of a list of named child slots. -/
def convPairs (f : BuilderState → Value → DiffValue × BuilderState) :
    BuilderState → List (String × Value) → List (String × DiffValue) × BuilderState
  | s, [] => ([], s)
  | s, (n, v) :: rest =>
    let (dv, s1) := f s v
    let (rest2, s2) := convPairs f s1 rest
    ((n, dv) :: rest2, s2)

/-- State-threading conversion of a list of sequence elements. -/
def convVals (f : BuilderState → Value → DiffValue × BuilderState) :
    BuilderState → List Value → List DiffValue × BuilderState
  | s, [] => ([], s)
  | s, v :: rest =>
    let (dv, s1) := f s v
    let (rest2, s2) := convVals f s1 rest
    (dv :: rest2, s2)

/-- Modelled from the spec: the builder's rewriting of a new value into diff
output.  A descendant aligned to an old node becomes a `Reference` to that
old node's path; a memoizable, unaligned descendant referenced from more
than one place is hoisted into `new_shared_values` (children first, so an
entry only references earlier slots) and becomes a `Reference` to its slot;
everything else is expanded in full. -/
def diffValueF (g : Arena) (a : DiffAlignment) :
    Nat → BuilderState → Value → DiffValue × BuilderState
  | _, s, .leaf x => (.leaf x, s)
  | 0, s, .node _ => (.leaf 0, s)
  | fuel + 1, s, .node h =>
    match oldFromNew a h with
    | some ho => (.ref (.oldRef ((firstPathOf g (graphFuel g) a.old ho).getD [])), s)
    | none =>
      match slotOf s h with
      | some i => (.ref (.newSharedRef i), s)
      | none =>
        let (dv, s1) : DiffValue × BuilderState :=
          match g[h]? with
          | none => (.leaf 0, s)
          | some (.compound k tag args) =>
            let (dargs, s1) := convPairs (diffValueF g a fuel) s args
            (.compound k tag dargs, s1)
          | some (.sequence elts) =>
            let (delts, s1) := convVals (diffValueF g a fuel) s elts
            (.sequence delts, s1)
          | some (.mapping entries) =>
            let (dentries, s1) := convPairs (diffValueF g a fuel) s entries
            (.mapping dentries, s1)
        if numPaths g (graphFuel g) a.new h > 1 then
          let i := s1.newSharedValues.length
          (.ref (.newSharedRef i),
            { s1 with
              newSharedValues := s1.newSharedValues ++ [dv]
              slotById := s1.slotById ++ [(h, i)] })
        else (dv, s1)

/-- Modelled from the spec: `aligned_or_equal(old_v, new_v)` — true iff the
alignment maps `old_v` to `new_v`, or both are non-memoizable leaves equal
by value. -/
def alignedOrEqual (a : DiffAlignment) : Value → Value → Bool
  | .node h1, .node h2 => newFromOld a h1 == some h2
  | .leaf x, .leaf y => x == y
  | .node _, .leaf _ => false
  | .leaf _, .node _ => false

/-- Processing one child position of an aligned pair: a position present on
both sides and aligned-or-equal emits nothing; a changed position emits
`ModifyValue`; an old-only position emits `DeleteValue`; a new-only position
emits `SetValue`. -/
def processChild (g : Arena) (a : DiffAlignment) (s : BuilderState)
    (basePath : Path) (st : PathStep)
    (oldChild newChild : Option Value) : BuilderState :=
  match oldChild, newChild with
  | some ov, some nv =>
    if alignedOrEqual a ov nv then s
    else
      let (dv, s1) := diffValueF g a (graphFuel g) s nv
      addChange s1 (basePath ++ [st]) (.modifyValue dv)
  | some _, none => addChange s (basePath ++ [st]) .deleteValue
  | none, some nv =>
    let (dv, s1) := diffValueF g a (graphFuel g) s nv
    addChange s1 (basePath ++ [st]) (.setValue dv)
  | none, none => s

/-- Modelled from the spec: the changes contributed by one aligned pair —
the callable-tag slot is compared first, then every argument slot / element
/ key present on either side. -/
def processPair (g : Arena) (a : DiffAlignment) (s : BuilderState)
    (ho hn : Nat) : BuilderState :=
  let p := (firstPathOf g (graphFuel g) a.new hn).getD []
  match g[ho]?, g[hn]? with
  | some (.compound _ tago argso), some (.compound _ tagn argsn) =>
    let s1 :=
      if tago == tagn then s
      else addChange s (p ++ [.fnOrCls]) (.modifyValue (.callable tagn))
    let s2 := argsn.foldl
      (fun s' an =>
        processChild g a s' p (.attr an.1)
          ((argso.find? (fun ao => ao.1 == an.1)).map (fun ao => ao.2))
          (some an.2))
      s1
    argso.foldl
      (fun s' ao =>
        if (argsn.find? (fun an => an.1 == ao.1)).isSome then s'
        else addChange s' (p ++ [.attr ao.1]) .deleteValue)
      s2
  | some (.sequence eo), some (.sequence en) =>
    (List.range (max eo.length en.length)).foldl
      (fun s' i => processChild g a s' p (.index i) eo[i]? en[i]?)
      s
  | some (.mapping mo), some (.mapping mn) =>
    let s2 := mn.foldl
      (fun s' kn =>
        processChild g a s' p (.key kn.1)
          ((mo.find? (fun ko => ko.1 == kn.1)).map (fun ko => ko.2))
          (some kn.2))
      s
    mo.foldl
      (fun s' ko =>
        if (mn.find? (fun kn => kn.1 == ko.1)).isSome then s'
        else addChange s' (p ++ [.key ko.1]) .deleteValue)
      s2
  | _, _ => s

/-- The final builder state: every aligned pair processed in insertion
order. -/
def buildState (g : Arena) (a : DiffAlignment) : BuilderState :=
  a.table.foldl (fun s pr => processPair g a s pr.1 pr.2) initialState

/-- Modelled from the spec: `build_diff_from_alignment` — the immutable
`Diff` produced from a completed alignment. -/
def build_diff_from_alignment (g : Arena) (a : DiffAlignment) : Diff :=
  let s := buildState g a
  ⟨s.changes, s.newSharedValues⟩

/-- Modelled from the spec: a usage error of the single-use diff builder. -/
inductive UsageError where
  | buildDiffCalledTwice
deriving DecidableEq, Repr

/-- Modelled from the spec: `_DiffFromAlignmentBuilder`, a single-use object
holding a completed alignment and an explicit consumed flag. -/
structure DiffFromAlignmentBuilder where
  alignment : DiffAlignment
  built : Bool
deriving Repr

/-- Constructing a fresh builder from a completed alignment. -/
def mkBuilder (a : DiffAlignment) : DiffFromAlignmentBuilder := ⟨a, false⟩

/-- Modelled from the spec: `build_diff()` — produces a `Diff` the first
time, and fails with a usage error on every later call, leaving the
consumed flag set. -/
def build_diff (g : Arena) (b : DiffFromAlignmentBuilder) :
    Except UsageError Diff × DiffFromAlignmentBuilder :=
  if b.built then (.error .buildDiffCalledTwice, b)
  else (.ok (build_diff_from_alignment g b.alignment), { b with built := true })

/-! ## Basic list lemmas -/

theorem foldl_preserve {α β : Type} {P : β → Prop} (f : β → α → β) :
    ∀ (l : List α) (b : β), P b → (∀ s x, x ∈ l → P s → P (f s x)) → P (l.foldl f b) := by
  intro l
  induction l with
  | nil => intro b hb _; exact hb
  | cons x rest ih =>
    intro b hb hstep
    exact ih (f b x) (hstep b x (List.mem_cons_self _ _) hb)
      (fun s y hy hs => hstep s y (List.mem_cons_of_mem _ hy) hs)

theorem find?_eq_some_of_mem_nodup {α β : Type} [BEq α] [LawfulBEq α]
    {l : List (α × β)} {k : α} {v : β}
    (hm : (k, v) ∈ l) (hnd : (l.map (fun a => a.1)).Nodup) :
    l.find? (fun a => a.1 == k) = some (k, v) := by
  induction l with
  | nil => cases hm
  | cons a rest ih =>
    simp only [List.map_cons, List.nodup_cons] at hnd
    rcases List.mem_cons.mp hm with h | h
    · subst h
      exact List.find?_cons_of_pos _ (by simp)
    · have hne : (a.1 == k) = false := by
        cases hb : (a.1 == k) with
        | false => rfl
        | true => exact absurd (List.mem_map.mpr ⟨_, h, (eq_of_beq hb).symm⟩) hnd.1
      rw [List.find?_cons_of_neg _ (by simp [hne]), ih h hnd.2]

theorem mem_seqSteps {v : Value} {st : PathStep} :
    ∀ {elts : List Value} {i : Nat},
      ((st, v) ∈ seqSteps i elts ↔ ∃ k, st = .index (i + k) ∧ elts[k]? = some v) := by
  intro elts
  induction elts with
  | nil => intro i; simp [seqSteps]
  | cons e rest ih =>
    intro i
    simp only [seqSteps, List.mem_cons]
    constructor
    · intro hm
      rcases hm with h | h
      · have h1 : st = PathStep.index i := congrArg Prod.fst h
        have h2 : v = e := congrArg Prod.snd h
        exact ⟨0, by simp [h1], by simp [h2]⟩
      · rcases ih.mp h with ⟨k, hst, hv⟩
        refine ⟨k + 1, ?_, by simpa using hv⟩
        rw [hst]; congr 1; omega
    · rintro ⟨k, hst, hv⟩
      cases k with
      | zero =>
        left
        simp only [Nat.add_zero] at hst
        simp only [List.getElem?_cons_zero, Option.some.injEq] at hv
        rw [hst, hv]
      | succ k2 =>
        right
        refine ih.mpr ⟨k2, ?_, by simpa using hv⟩
        rw [hst]; congr 1; omega

theorem childSteps_val_mem {c : NodeContent} {st : PathStep} {v : Value}
    (h : (st, v) ∈ childSteps c) : v ∈ contentVals c := by
  cases c with
  | compound k t args =>
    simp only [childSteps, List.mem_map] at h
    rcases h with ⟨a, ha, he⟩
    exact List.mem_map.mpr ⟨a, ha, congrArg Prod.snd he⟩
  | sequence elts =>
    simp only [childSteps] at h
    rcases mem_seqSteps.mp h with ⟨k, _, hv⟩
    exact List.getElem?_mem hv
  | mapping entries =>
    simp only [childSteps, List.mem_map] at h
    rcases h with ⟨a, ha, he⟩
    exact List.mem_map.mpr ⟨a, ha, congrArg Prod.snd he⟩

theorem wfArena_spec {g : Arena} (hw : wfArena g = true) {h : Nat} {c : NodeContent}
    (hc : g[h]? = some c) :
    (∀ v ∈ contentVals c, valueBound h v = true) ∧ contentKeysNodup c = true := by
  have hlen : h < g.length := by
    by_contra hge
    rw [List.getElem?_eq_none (by omega)] at hc
    cases hc
  have := (List.all_eq_true.mp hw) h (List.mem_range.mpr hlen)
  rw [hc] at this
  simp only [Bool.and_eq_true, List.all_eq_true] at this
  exact ⟨fun v hv => this.1 v hv, this.2⟩

theorem stepValue_mem_childSteps {g : Arena} {h : Nat} {c : NodeContent}
    (hc : g[h]? = some c) {s : PathStep} {v : Value}
    (hs : stepValue g (.node h) s = some v) : (s, v) ∈ childSteps c := by
  simp only [stepValue, hc] at hs
  cases c with
  | compound k t args =>
    cases s with
    | attr n =>
      simp only [Option.map_eq_some'] at hs
      rcases hs with ⟨a, hfind, hv⟩
      have hmem := List.mem_of_find?_eq_some hfind
      have hpred := List.find?_some hfind
      have : a.1 = n := by simpa using hpred
      exact List.mem_map.mpr ⟨a, hmem, by rw [← this, ← hv]⟩
    | index _ => cases hs
    | key _ => cases hs
    | fnOrCls => cases hs
  | sequence elts =>
    cases s with
    | attr _ => cases hs
    | index i =>
      exact mem_seqSteps.mpr ⟨i, by rw [Nat.zero_add], hs⟩
    | key _ => cases hs
    | fnOrCls => cases hs
  | mapping entries =>
    cases s with
    | attr _ => cases hs
    | index _ => cases hs
    | key n =>
      simp only [Option.map_eq_some'] at hs
      rcases hs with ⟨a, hfind, hv⟩
      have hmem := List.mem_of_find?_eq_some hfind
      have hpred := List.find?_some hfind
      have : a.1 = n := by simpa using hpred
      exact List.mem_map.mpr ⟨a, hmem, by rw [← this, ← hv]⟩
    | fnOrCls => cases hs

theorem stepValue_of_mem_childSteps {g : Arena} {h : Nat} {c : NodeContent}
    (hc : g[h]? = some c) (hnd : contentKeysNodup c = true) {s : PathStep} {v : Value}
    (hm : (s, v) ∈ childSteps c) : stepValue g (.node h) s = some v := by
  cases c with
  | compound k t args =>
    simp only [contentKeysNodup, slotKeys, decide_eq_true_eq] at hnd
    simp only [childSteps, List.mem_map] at hm
    rcases hm with ⟨a, ha, he⟩
    have h1 : PathStep.attr a.1 = s := congrArg Prod.fst he
    have h2 : a.2 = v := congrArg Prod.snd he
    cases h1
    simp only [stepValue, hc]
    rw [find?_eq_some_of_mem_nodup (show (a.1, a.2) ∈ args from ha) hnd, h2]
    simp
  | sequence elts =>
    simp only [childSteps] at hm
    rcases mem_seqSteps.mp hm with ⟨kk, hst, hv⟩
    rw [Nat.zero_add] at hst
    subst hst
    simpa [stepValue, hc] using hv
  | mapping entries =>
    simp only [contentKeysNodup, slotKeys, decide_eq_true_eq] at hnd
    simp only [childSteps, List.mem_map] at hm
    rcases hm with ⟨a, ha, he⟩
    have h1 : PathStep.key a.1 = s := congrArg Prod.fst he
    have h2 : a.2 = v := congrArg Prod.snd he
    cases h1
    simp only [stepValue, hc]
    rw [find?_eq_some_of_mem_nodup (show (a.1, a.2) ∈ entries from ha) hnd, h2]
    simp

theorem resolve_append (g : Arena) (v : Value) (p q : Path) :
    resolve g v (p ++ q) = (resolve g v p).bind (fun w => resolve g w q) := by
  induction p generalizing v with
  | nil => simp [resolve]
  | cons s p ih =>
    simp only [List.cons_append, resolve]
    cases stepValue g v s with
    | none => simp
    | some v2 => simp [ih]

/-! ## Correctness of the path enumeration -/

/-- The fuel needed to enumerate from a value: any fuel for a leaf, more
than the handle for a node. -/
def fuelOk (fuel : Nat) : Value → Prop
  | .leaf _ => True
  | .node h => h < fuel

theorem fuelOk_child {g : Arena} (hw : wfArena g = true) {h : Nat} {c : NodeContent}
    (hc : g[h]? = some c) {fuel : Nat} (hf : h < fuel + 1) {v : Value}
    (hv : v ∈ contentVals c) : fuelOk fuel v := by
  have hb := (wfArena_spec hw hc).1 v hv
  cases v with
  | leaf _ => trivial
  | node h2 =>
    simp only [valueBound, decide_eq_true_eq] at hb
    exact Nat.lt_of_lt_of_le hb (by omega)

/-- Completeness and soundness of `pvList`: with enough fuel, the pairs it
enumerates are exactly the resolvable (path, value) pairs. -/
theorem pvList_mem_iff {g : Arena} (hw : wfArena g = true) :
    ∀ (fuel : Nat) (v : Value), fuelOk fuel v →
      ∀ p w, ((p, w) ∈ pvList g fuel v ↔ resolve g v p = some w) := by
  intro fuel
  induction fuel with
  | zero =>
    intro v hv p w
    cases v with
    | leaf x =>
      simp only [pvList, List.mem_singleton, Prod.mk.injEq]
      constructor
      · rintro ⟨hp, hw2⟩
        rw [hp, hw2]; rfl
      · intro hr
        cases p with
        | nil => exact ⟨rfl, by simpa [resolve] using hr.symm⟩
        | cons s p2 => simp [resolve, stepValue] at hr
    | node h => exact absurd hv (by simp [fuelOk])
  | succ fuel ih =>
    intro v hv p w
    cases v with
    | leaf x =>
      simp only [pvList, List.mem_singleton, Prod.mk.injEq]
      constructor
      · rintro ⟨hp, hw2⟩
        rw [hp, hw2]; rfl
      · intro hr
        cases p with
        | nil => exact ⟨rfl, by simpa [resolve] using hr.symm⟩
        | cons s p2 => simp [resolve, stepValue] at hr
    | node h =>
      simp only [pvList]
      cases p with
      | nil =>
        constructor
        · intro hm
          rcases List.mem_cons.mp hm with hh | hh
          · have hww : w = Value.node h := congrArg Prod.snd hh
            rw [hww]; rfl
          · exfalso
            cases hg : g[h]? with
            | none => rw [hg] at hh; cases hh
            | some c =>
              rw [hg] at hh
              rcases List.mem_flatMap.mp hh with ⟨sv, _, hmem⟩
              rcases List.mem_map.mp hmem with ⟨pv, _, heq⟩
              have : sv.1 :: pv.1 = ([] : Path) := congrArg Prod.fst heq
              cases this
        · intro he
          have hww : Value.node h = w := by
            simpa [resolve] using he
          rw [← hww]
          exact List.mem_cons_self _ _
      | cons s p2 =>
        constructor
        · intro hm
          rcases List.mem_cons.mp hm with hh | hh
          · have : s :: p2 = ([] : Path) := congrArg Prod.fst hh
            cases this
          · cases hg : g[h]? with
            | none => rw [hg] at hh; cases hh
            | some c =>
              rw [hg] at hh
              rcases List.mem_flatMap.mp hh with ⟨sv, hsv, hmem⟩
              rcases List.mem_map.mp hmem with ⟨pv, hpv, heq⟩
              have h1 : sv.1 :: pv.1 = s :: p2 := congrArg Prod.fst heq
              have hs2 : sv.1 = s := (List.cons.inj h1).1
              have hp2 : pv.1 = p2 := (List.cons.inj h1).2
              have hw2 : pv.2 = w := congrArg Prod.snd heq
              have hstep : stepValue g (.node h) s = some sv.2 := by
                rw [← hs2]
                exact stepValue_of_mem_childSteps hg (wfArena_spec hw hg).2
                  (show (sv.1, sv.2) ∈ childSteps c from hsv)
              show (stepValue g (.node h) s).bind (fun v2 => resolve g v2 p2) = some w
              rw [hstep]
              have hchild : fuelOk fuel sv.2 :=
                fuelOk_child hw hg hv (childSteps_val_mem (show (sv.1, sv.2) ∈ childSteps c from hsv))
              have hres := (ih sv.2 hchild pv.1 pv.2).mp (show (pv.1, pv.2) ∈ _ from hpv)
              rw [hp2, hw2] at hres
              simpa using hres
        · intro hr
          have hr2 : (stepValue g (.node h) s).bind (fun v2 => resolve g v2 p2) = some w := hr
          cases hstep : stepValue g (.node h) s with
          | none => rw [hstep] at hr2; cases hr2
          | some v2 =>
            rw [hstep] at hr2
            simp only [Option.some_bind] at hr2
            refine List.mem_cons_of_mem _ ?_
            cases hg : g[h]? with
            | none =>
              exfalso
              simp only [stepValue, hg] at hstep
              cases hstep
            | some c =>
              have hcsm : (s, v2) ∈ childSteps c := stepValue_mem_childSteps hg hstep
              have hchild : fuelOk fuel v2 := fuelOk_child hw hg hv (childSteps_val_mem hcsm)
              refine List.mem_flatMap.mpr ⟨(s, v2), hcsm, List.mem_map.mpr ⟨(p2, w), ?_, rfl⟩⟩
              exact (ih v2 hchild p2 w).mpr hr2

/-! ## Reachability -/

theorem reachList_mem_iff {g : Arena} (hw : wfArena g = true) {fuel : Nat} {v : Value}
    (hfo : fuelOk fuel v) (h : Nat) :
    h ∈ reachList g fuel v ↔ ∃ p, resolve g v p = some (.node h) := by
  unfold reachList
  constructor
  · intro hm
    rcases List.mem_filterMap.mp hm with ⟨pv, hpv, hmatch⟩
    cases hv2 : pv.2 with
    | leaf x => rw [hv2] at hmatch; cases hmatch
    | node h2 =>
      rw [hv2] at hmatch
      have hh : h2 = h := by simpa using hmatch
      refine ⟨pv.1, ?_⟩
      have := (pvList_mem_iff hw fuel v hfo pv.1 pv.2).mp (show (pv.1, pv.2) ∈ _ from hpv)
      rw [hv2, hh] at this
      exact this
  · rintro ⟨p, hp⟩
    refine List.mem_filterMap.mpr ⟨(p, .node h), ?_, rfl⟩
    exact (pvList_mem_iff hw fuel v hfo p (.node h)).mpr hp

theorem firstPathOf_resolve {g : Arena} (hw : wfArena g = true) {fuel : Nat} {root : Value}
    (hfo : fuelOk fuel root) {h : Nat} {p : Path}
    (hfp : firstPathOf g fuel root h = some p) : resolve g root p = some (.node h) := by
  unfold firstPathOf at hfp
  rcases Option.map_eq_some'.mp hfp with ⟨pv, hfind, hp⟩
  have hmem := List.mem_of_find?_eq_some hfind
  have hpred := List.find?_some hfind
  have hv2 : pv.2 = Value.node h := by simpa using hpred
  have := (pvList_mem_iff hw fuel root hfo pv.1 pv.2).mp (show (pv.1, pv.2) ∈ _ from hmem)
  rw [hv2, hp] at this
  exact this

theorem firstPathOf_isSome {g : Arena} (hw : wfArena g = true) {fuel : Nat} {root : Value}
    (hfo : fuelOk fuel root) {h : Nat} {p : Path}
    (hp : resolve g root p = some (.node h)) :
    ∃ q, firstPathOf g fuel root h = some q := by
  have hmem := (pvList_mem_iff hw fuel root hfo p (.node h)).mpr hp
  have : ((pvList g fuel root).find? (fun pv => pv.2 == .node h)).isSome = true :=
    List.find?_isSome.mpr ⟨(p, .node h), hmem, by simp⟩
  rcases Option.isSome_iff_exists.mp this with ⟨pv, hfind⟩
  exact ⟨pv.1, by simp [firstPathOf, hfind]⟩

theorem resolve_child {g : Arena} (hw : wfArena g = true) {root : Value} {p : Path}
    {h : Nat} (hp : resolve g root p = some (.node h)) {c : NodeContent}
    (hc : g[h]? = some c) {s : PathStep} {v : Value} (hm : (s, v) ∈ childSteps c) :
    resolve g root (p ++ [s]) = some v := by
  rw [resolve_append, hp]
  simp only [Option.some_bind, resolve]
  rw [stepValue_of_mem_childSteps hc (wfArena_spec hw hc).2 hm]
  rfl

/-! ## Alignment lookup lemmas -/

/-- Each old node aligns to at most one new node in the table. -/
def tableFunctional (a : DiffAlignment) : Prop :=
  ∀ pr ∈ a.table, ∀ pr' ∈ a.table, pr.1 = pr'.1 → pr.2 = pr'.2

/-- Each new node aligns to at most one old node in the table. -/
def tableInjective (a : DiffAlignment) : Prop :=
  ∀ pr ∈ a.table, ∀ pr' ∈ a.table, pr.2 = pr'.2 → pr.1 = pr'.1

theorem newFromOld_eq_some_iff {a : DiffAlignment} (hfunc : tableFunctional a)
    {h1 h2 : Nat} : newFromOld a h1 = some h2 ↔ (h1, h2) ∈ a.table := by
  unfold newFromOld
  constructor
  · intro hm
    rcases Option.map_eq_some'.mp hm with ⟨pr, hfind, hp⟩
    have hmem := List.mem_of_find?_eq_some hfind
    have hpred : pr.1 = h1 := by simpa using List.find?_some hfind
    have : pr = (h1, h2) := by
      rcases pr with ⟨x, y⟩
      simp only at hpred hp
      rw [hpred, hp]
    rw [← this]; exact hmem
  · intro hm
    have : ((a.table.find? (fun pr => pr.1 == h1)).isSome) = true :=
      List.find?_isSome.mpr ⟨(h1, h2), hm, by simp⟩
    rcases Option.isSome_iff_exists.mp this with ⟨pr, hfind⟩
    have hmem := List.mem_of_find?_eq_some hfind
    have hpred : pr.1 = h1 := by simpa using List.find?_some hfind
    have := hfunc pr hmem (h1, h2) hm hpred
    rw [hfind]
    simp [this]

theorem oldFromNew_eq_some_iff {a : DiffAlignment} (hinj : tableInjective a)
    {h1 h2 : Nat} : oldFromNew a h2 = some h1 ↔ (h1, h2) ∈ a.table := by
  unfold oldFromNew
  constructor
  · intro hm
    rcases Option.map_eq_some'.mp hm with ⟨pr, hfind, hp⟩
    have hmem := List.mem_of_find?_eq_some hfind
    have hpred : pr.2 = h2 := by simpa using List.find?_some hfind
    have : pr = (h1, h2) := by
      rcases pr with ⟨x, y⟩
      simp only at hpred hp
      rw [hpred, hp]
    rw [← this]; exact hmem
  · intro hm
    have : ((a.table.find? (fun pr => pr.2 == h2)).isSome) = true :=
      List.find?_isSome.mpr ⟨(h1, h2), hm, by simp⟩
    rcases Option.isSome_iff_exists.mp this with ⟨pr, hfind⟩
    have hmem := List.mem_of_find?_eq_some hfind
    have hpred : pr.2 = h2 := by simpa using List.find?_some hfind
    have := hinj pr hmem (h1, h2) hm hpred
    rw [hfind]
    simp [this]

theorem isOldValueAligned_iff {a : DiffAlignment} {h : Nat} :
    isOldValueAligned a (.node h) = true ↔ ∃ pr ∈ a.table, pr.1 = h := by
  simp only [isOldValueAligned, newFromOld, Option.isSome_map']
  rw [List.find?_isSome]
  constructor
  · rintro ⟨pr, hm, hp⟩; exact ⟨pr, hm, by simpa using hp⟩
  · rintro ⟨pr, hm, hp⟩; exact ⟨pr, hm, by simpa using hp⟩

theorem isNewValueAligned_iff {a : DiffAlignment} {h : Nat} :
    isNewValueAligned a (.node h) = true ↔ ∃ pr ∈ a.table, pr.2 = h := by
  simp only [isNewValueAligned, oldFromNew, Option.isSome_map']
  rw [List.find?_isSome]
  constructor
  · rintro ⟨pr, hm, hp⟩; exact ⟨pr, hm, by simpa using hp⟩
  · rintro ⟨pr, hm, hp⟩; exact ⟨pr, hm, by simpa using hp⟩

/-! ## Claim C4: aligned_or_equal -/

/-- C4: for a diff builder over a one-to-one alignment, `aligned_or_equal
(old_v, new_v)` is true if and only if the alignment maps `old_v` to
`new_v`, or `old_v` and `new_v` are non-memoizable leaves equal by value. -/
theorem aligned_or_equal_spec (a : DiffAlignment) (hfunc : tableFunctional a)
    (oldV newV : Value) :
    alignedOrEqual a oldV newV = true ↔
      ((∃ h1 h2, oldV = .node h1 ∧ newV = .node h2 ∧ (h1, h2) ∈ a.table) ∨
       (∃ x, oldV = .leaf x ∧ newV = .leaf x)) := by
  cases oldV with
  | leaf x =>
    cases newV with
    | leaf y =>
      simp only [alignedOrEqual, beq_iff_eq]
      constructor
      · intro he; exact Or.inr ⟨x, rfl, by rw [he]⟩
      · intro hd
        rcases hd with ⟨h1, _, he1, _, _⟩ | ⟨z, hz1, hz2⟩
        · cases he1
        · cases hz1; cases hz2; rfl
    | node h2 =>
      simp only [alignedOrEqual]
      constructor
      · intro he; cases he
      · intro hd
        rcases hd with ⟨h1, _, he1, _, _⟩ | ⟨z, _, hz2⟩
        · cases he1
        · cases hz2
  | node h1 =>
    cases newV with
    | leaf y =>
      simp only [alignedOrEqual]
      constructor
      · intro he; cases he
      · intro hd
        rcases hd with ⟨_, hh2, _, he2, _⟩ | ⟨z, hz1, _⟩
        · cases he2
        · cases hz1
    | node h2 =>
      simp only [alignedOrEqual, beq_iff_eq]
      constructor
      · intro he
        exact Or.inl ⟨h1, h2, rfl, rfl, (newFromOld_eq_some_iff hfunc).mp he⟩
      · intro hd
        rcases hd with ⟨h1', h2', he1, he2, hm⟩ | ⟨x, hx, _⟩
        · cases he1; cases he2
          exact (newFromOld_eq_some_iff hfunc).mpr hm
        · cases hx

/-- C4 witness at a concrete alignment. -/
theorem aligned_or_equal_spec_witness :
    tableFunctional ⟨.leaf 0, .leaf 0, [(0, 1)]⟩ ∧
      (alignedOrEqual ⟨.leaf 0, .leaf 0, [(0, 1)]⟩ (.node 0) (.node 1) = true ↔
        ((∃ h1 h2, (Value.node 0) = .node h1 ∧ (Value.node 1) = .node h2 ∧
            (h1, h2) ∈ (DiffAlignment.mk (.leaf 0) (.leaf 0) [(0, 1)]).table) ∨
         (∃ x, (Value.node 0) = .leaf x ∧ (Value.node 1) = .leaf x))) :=
  ⟨by unfold tableFunctional; decide, aligned_or_equal_spec _ (by unfold tableFunctional; decide) _ _⟩

/-! ## Claim C5: when align raises -/

theorem validateAlign_eq_none_iff (g : Arena) (a : DiffAlignment) (oldV newV : Value) :
    validateAlign g a oldV newV = none ↔
      (isMemoizable oldV = true ∧ isMemoizable newV = true ∧
       typeTagOf g oldV = typeTagOf g newV ∧
       isOldValueAligned a oldV = false ∧ isNewValueAligned a newV = false ∧
       seqLenMismatch g oldV newV = false) := by
  unfold validateAlign
  split_ifs with hc1 hc2 hc3 hc4 hc5 hc6 <;> simp_all

theorem align_fst_eq_validate (g : Arena) (a : DiffAlignment) (oldV newV : Value) :
    (align g a oldV newV).1 = validateAlign g a oldV newV := by
  cases hv : validateAlign g a oldV newV with
  | some e => simp [align, hv]
  | none =>
    have hc := (validateAlign_eq_none_iff g a oldV newV).mp hv
    cases oldV with
    | leaf x => simp [isMemoizable] at hc
    | node h1 =>
      cases newV with
      | leaf y =>
        rcases hc with ⟨_, hm, _⟩
        simp [isMemoizable] at hm
      | node h2 => simp [align, hv]

/-- C5 (amended): `align` raises exactly when the two values have different
types, or a value already has an alignment entry (on either side), or both
values are sequences of different lengths, or either value is not
memoizable; in every other case the call succeeds and registers the
correspondence.  (The original claim also made a mapping length mismatch an
error; `test_delete_dict_item` shows mappings of different lengths align.) -/
theorem align_error_iff (g : Arena) (a : DiffAlignment) (oldV newV : Value) :
    (((align g a oldV newV).1).isSome = true ↔
      (isMemoizable oldV = false ∨ isMemoizable newV = false ∨
       typeTagOf g oldV ≠ typeTagOf g newV ∨
       isOldValueAligned a oldV = true ∨ isNewValueAligned a newV = true ∨
       seqLenMismatch g oldV newV = true)) ∧
    ((align g a oldV newV).1 = none →
      ∃ h1 h2, oldV = .node h1 ∧ newV = .node h2 ∧
        (align g a oldV newV).2.table = a.table ++ [(h1, h2)]) := by
  have hiff := validateAlign_eq_none_iff g a oldV newV
  constructor
  · rw [align_fst_eq_validate]
    constructor
    · intro hsome
      by_contra hnot
      push_neg at hnot
      obtain ⟨n1, n2, n3, n4, n5, n6⟩ := hnot
      simp only [ne_eq, Bool.not_eq_false] at n1 n2
      simp only [ne_eq, Bool.not_eq_true] at n4 n5 n6
      rw [hiff.mpr ⟨n1, n2, n3, n4, n5, n6⟩] at hsome
      cases hsome
    · intro hd
      cases hv : validateAlign g a oldV newV with
      | some e => rfl
      | none =>
        exfalso
        have hc := hiff.mp hv
        rcases hd with h | h | h | h | h | h
        · rw [hc.1] at h; cases h
        · rw [hc.2.1] at h; cases h
        · exact h hc.2.2.1
        · rw [hc.2.2.2.1] at h; cases h
        · rw [hc.2.2.2.2.1] at h; cases h
        · rw [hc.2.2.2.2.2] at h; cases h
  · intro hnone
    rw [align_fst_eq_validate] at hnone
    have hc := hiff.mp hnone
    cases oldV with
    | leaf x => simp [isMemoizable] at hc
    | node h1 =>
      cases newV with
      | leaf y =>
        rcases hc with ⟨_, hm, _⟩
        simp [isMemoizable] at hm
      | node h2 =>
        refine ⟨h1, h2, rfl, rfl, ?_⟩
        simp [align, hnone]

/-- C5 witness at a concrete successful call. -/
theorem align_error_iff_witness :
    ((align [.sequence [], .sequence []] ⟨.node 0, .node 1, []⟩
        (.node 0) (.node 1)).1 = none →
      ∃ h1 h2, (Value.node 0) = .node h1 ∧ (Value.node 1) = .node h2 ∧
        (align [.sequence [], .sequence []] ⟨.node 0, .node 1, []⟩
          (.node 0) (.node 1)).2.table = ([] : List (Nat × Nat)) ++ [(h1, h2)]) :=
  (align_error_iff [.sequence [], .sequence []] ⟨.node 0, .node 1, []⟩
    (.node 0) (.node 1)).2

/-- C5 counterexample: two mappings of different lengths, with no other
error condition, and `align` succeeds and registers the pair — refuting the
claim that a mapping length mismatch raises `AlignmentError`.  This is the
behaviour pinned by `test_delete_dict_item`, where mappings of lengths 3 and
1 must be aligned for `DeleteValue` entries to appear at their keys. -/
theorem align_mapping_length_cex :
    (typeTagOf [.mapping [("a", .leaf 1)], .mapping []] (.node 0) = .mapT ∧
     typeTagOf [.mapping [("a", .leaf 1)], .mapping []] (.node 1) = .mapT) ∧
    (contentVals (.mapping [("a", .leaf 1)])).length ≠
      (contentVals (.mapping ([] : List (String × Value)))).length ∧
    (align [.mapping [("a", .leaf 1)], .mapping []] ⟨.node 0, .node 1, []⟩
       (.node 0) (.node 1)).1 = none ∧
    (align [.mapping [("a", .leaf 1)], .mapping []] ⟨.node 0, .node 1, []⟩
       (.node 0) (.node 1)).2.table = [(0, 1)] := by
  refine ⟨⟨rfl, rfl⟩, by decide, rfl, rfl⟩

/-! ## Claim C6: align is atomic on failure -/

/-- C6: whenever `align` raises, the alignment is left exactly as it was
before the call — the state, both membership tests, and the registered
correspondences are unchanged. -/
theorem align_atomic_on_failure (g : Arena) (a : DiffAlignment) (oldV newV : Value)
    (e : AlignmentError) (he : (align g a oldV newV).1 = some e) :
    (align g a oldV newV).2 = a ∧
    (∀ v, isOldValueAligned (align g a oldV newV).2 v = isOldValueAligned a v) ∧
    (∀ v, isNewValueAligned (align g a oldV newV).2 v = isNewValueAligned a v) ∧
    (∀ h1 h2, ((h1, h2) ∈ (align g a oldV newV).2.table ↔ (h1, h2) ∈ a.table)) := by
  have hstate : (align g a oldV newV).2 = a := by
    cases hv : validateAlign g a oldV newV with
    | some e2 => simp [align, hv]
    | none =>
      cases oldV with
      | leaf x => simp [align, hv]
      | node h1 =>
        cases newV with
        | leaf y => simp [align, hv]
        | node h2 =>
          exfalso
          simp [align, hv] at he
  exact ⟨hstate, fun v => by rw [hstate], fun v => by rw [hstate],
    fun h1 h2 => by rw [hstate]⟩

/-- C6 witness: a concrete failing call (non-memoizable old value). -/
theorem align_atomic_on_failure_witness :
    (align [] ⟨.leaf 0, .leaf 1, [(4, 5)]⟩ (.leaf 0) (.leaf 1)).2 =
      DiffAlignment.mk (.leaf 0) (.leaf 1) [(4, 5)] :=
  (align_atomic_on_failure [] ⟨.leaf 0, .leaf 1, [(4, 5)]⟩ (.leaf 0) (.leaf 1)
    .nonMemoizableOld rfl).1

/-! ## Claim C9: the diff builder is single-use -/

/-- C9: the first `build_diff` call on a fresh builder produces a `Diff` and
marks the builder consumed; every call on a consumed builder fails with the
usage error and leaves the builder consumed, so every call after the first
raises. -/
theorem build_diff_single_use (g : Arena) (a : DiffAlignment) :
    ((build_diff g (mkBuilder a)).1 = .ok (build_diff_from_alignment g a) ∧
     (build_diff g (mkBuilder a)).2.built = true) ∧
    (∀ b : DiffFromAlignmentBuilder, b.built = true →
      (build_diff g b).1 = .error .buildDiffCalledTwice ∧ (build_diff g b).2 = b) := by
  constructor
  · constructor
    · simp [build_diff, mkBuilder]
    · simp [build_diff, mkBuilder]
  · intro b hb
    constructor
    · simp [build_diff, hb]
    · simp [build_diff, hb]

/-- C9 witness: a concrete second call raising the usage error. -/
theorem build_diff_single_use_witness :
    (build_diff [] ((build_diff [] (mkBuilder ⟨.leaf 0, .leaf 0, []⟩)).2)).1 =
      .error .buildDiffCalledTwice :=
  ((build_diff_single_use [] ⟨.leaf 0, .leaf 0, []⟩).2
    ((build_diff [] (mkBuilder ⟨.leaf 0, .leaf 0, []⟩)).2)
    (build_diff_single_use [] ⟨.leaf 0, .leaf 0, []⟩).1.2).1

/-! ## Builder monotonicity of emitted changes -/

theorem convPairs_changes {f : BuilderState → Value → DiffValue × BuilderState}
    (hf : ∀ s v, ((f s v).2).changes = s.changes) :
    ∀ (l : List (String × Value)) (s : BuilderState),
      ((convPairs f s l).2).changes = s.changes := by
  intro l
  induction l with
  | nil => intro s; rfl
  | cons a rest ih =>
    intro s
    rcases a with ⟨n, v⟩
    simp only [convPairs]
    rw [ih, hf]

theorem convVals_changes {f : BuilderState → Value → DiffValue × BuilderState}
    (hf : ∀ s v, ((f s v).2).changes = s.changes) :
    ∀ (l : List Value) (s : BuilderState),
      ((convVals f s l).2).changes = s.changes := by
  intro l
  induction l with
  | nil => intro s; rfl
  | cons v rest ih =>
    intro s
    simp only [convVals]
    rw [ih, hf]

/-- The value-rewriting pass never emits changes; it only hoists shared
values. -/
theorem diffValueF_changes (g : Arena) (a : DiffAlignment) :
    ∀ (fuel : Nat) (s : BuilderState) (v : Value),
      ((diffValueF g a fuel s v).2).changes = s.changes := by
  intro fuel
  induction fuel with
  | zero =>
    intro s v
    cases v with
    | leaf x => rfl
    | node h => rfl
  | succ fuel ih =>
    intro s v
    cases v with
    | leaf x => rfl
    | node h =>
      simp only [diffValueF]
      cases oldFromNew a h with
      | some ho => rfl
      | none =>
        simp only
        cases slotOf s h with
        | some i => rfl
        | none =>
          simp only
          cases hg : g[h]? with
          | none =>
            simp only
            split <;> rfl
          | some c =>
            cases c with
            | compound k tag args =>
              simp only
              split
              · simp only [convPairs_changes ih]
              · simp only [convPairs_changes ih]
            | sequence elts =>
              simp only
              split
              · simp only [convVals_changes ih]
              · simp only [convVals_changes ih]
            | mapping entries =>
              simp only
              split
              · simp only [convPairs_changes ih]
              · simp only [convPairs_changes ih]

theorem mem_changes_addChange {s : BuilderState} {x : Path × DiffOperation}
    (h : x ∈ s.changes) (p : Path) (op : DiffOperation) :
    x ∈ (addChange s p op).changes :=
  List.mem_append.mpr (Or.inl h)

theorem changes_mem_foldl {α : Type} (f : BuilderState → α → BuilderState) (l : List α)
    (hstep : ∀ s x2, x2 ∈ l → ∀ y ∈ s.changes, y ∈ (f s x2).changes)
    {s : BuilderState} {y : Path × DiffOperation} (hy : y ∈ s.changes) :
    y ∈ (l.foldl f s).changes := by
  induction l generalizing s with
  | nil => exact hy
  | cons x2 rest ih =>
    exact ih (fun s2 z hz y2 hy2 => hstep s2 z (List.mem_cons_of_mem _ hz) y2 hy2)
      (hstep s x2 (List.mem_cons_self _ _) y hy)

theorem mem_changes_processChild (g : Arena) (a : DiffAlignment)
    {s : BuilderState} {x : Path × DiffOperation} (h : x ∈ s.changes)
    (basePath : Path) (st : PathStep) (oc nc : Option Value) :
    x ∈ (processChild g a s basePath st oc nc).changes := by
  cases oc with
  | none =>
    cases nc with
    | none => exact h
    | some nv =>
      simp only [processChild]
      refine mem_changes_addChange ?_ _ _
      rw [diffValueF_changes]
      exact h
  | some ov =>
    cases nc with
    | none => exact mem_changes_addChange h _ _
    | some nv =>
      simp only [processChild]
      split
      · exact h
      · refine mem_changes_addChange ?_ _ _
        rw [diffValueF_changes]
        exact h

/-! ## Claim C10: callable tags and alignment types -/

/-- C10: two compound nodes of the same buildable class align even when
their callable tags differ (the tag is not part of the type check, and the
pair is registered); a differing tag is instead reported by the diff
builder as a `ModifyValue` at the pair's callable-tag path; and two
compound nodes of different buildable classes are a type mismatch, so
`align` raises `AlignmentError`. -/
theorem callable_tag_alignment_and_diff :
    (∀ (g : Arena) (a : DiffAlignment) (h1 h2 : Nat) (k : BuildableKind)
       (t1 t2 : Nat) (args1 args2 : List (String × Value)),
      g[h1]? = some (.compound k t1 args1) → g[h2]? = some (.compound k t2 args2) →
      isOldValueAligned a (.node h1) = false → isNewValueAligned a (.node h2) = false →
      (align g a (.node h1) (.node h2)).1 = none ∧
        (align g a (.node h1) (.node h2)).2.table = a.table ++ [(h1, h2)]) ∧
    (∀ (g : Arena) (a : DiffAlignment) (s : BuilderState) (ho hn : Nat)
       (ko kn : BuildableKind) (tago tagn : Nat)
       (argso argsn : List (String × Value)),
      g[ho]? = some (.compound ko tago argso) → g[hn]? = some (.compound kn tagn argsn) →
      tago ≠ tagn →
      (((firstPathOf g (graphFuel g) a.new hn).getD []) ++ [.fnOrCls],
        DiffOperation.modifyValue (.callable tagn)) ∈ (processPair g a s ho hn).changes) ∧
    (∀ (g : Arena) (a : DiffAlignment) (h1 h2 : Nat) (t1 t2 : Nat)
       (args1 args2 : List (String × Value)),
      g[h1]? = some (.compound .config t1 args1) → g[h2]? = some (.compound .part t2 args2) →
      (align g a (.node h1) (.node h2)).1 = some .differentTypes) := by
  refine ⟨?_, ?_, ?_⟩
  · intro g a h1 h2 k t1 t2 args1 args2 hg1 hg2 hu1 hu2
    have hv : validateAlign g a (.node h1) (.node h2) = none := by
      apply (validateAlign_eq_none_iff g a (.node h1) (.node h2)).mpr
      refine ⟨rfl, rfl, ?_, hu1, hu2, ?_⟩
      · cases k <;> simp [typeTagOf, hg1, hg2]
      · simp [seqLenMismatch, hg1, hg2]
    constructor
    · rw [align_fst_eq_validate, hv]
    · simp [align, hv]
  · intro g a s ho hn ko kn tago tagn argso argsn hgo hgn htag
    have hbeq : (tago == tagn) = false := by
      simp [htag]
    simp only [processPair, hgo, hgn, hbeq]
    simp only [Bool.false_eq_true, if_false]
    apply changes_mem_foldl
    · intro s2 ao _ y hy
      split
      · exact hy
      · exact mem_changes_addChange hy _ _
    · apply changes_mem_foldl
      · intro s2 an _ y hy
        exact mem_changes_processChild g a hy _ _ _ _
      · exact List.mem_append.mpr (Or.inr (List.mem_singleton.mpr rfl))
  · intro g a h1 h2 t1 t2 args1 args2 hg1 hg2
    rw [align_fst_eq_validate]
    simp [validateAlign, isMemoizable, typeTagOf, hg1, hg2]

/-- C10 witness at a concrete pair of compound nodes. -/
theorem callable_tag_alignment_and_diff_witness :
    (align [.compound .config 0 [], .compound .config 1 []]
       ⟨.node 0, .node 1, []⟩ (.node 0) (.node 1)).1 = none ∧
    (align [.compound .config 0 [], .compound .config 1 []]
       ⟨.node 0, .node 1, []⟩ (.node 0) (.node 1)).2.table =
      ([] : List (Nat × Nat)) ++ [(0, 1)] :=
  callable_tag_alignment_and_diff.1 [.compound .config 0 [], .compound .config 1 []]
    ⟨.node 0, .node 1, []⟩ 0 1 .config 0 1 [] [] rfl rfl rfl rfl

/-! ## Behaviour of tryAlign -/

theorem seqLenMismatch_self (g : Arena) (v : Value) : seqLenMismatch g v v = false := by
  cases v with
  | leaf x => rfl
  | node h =>
    simp only [seqLenMismatch]
    cases g[h]? with
    | none => rfl
    | some c => cases c <;> simp

theorem tryAlign_of_validate_some {g : Arena} {a : DiffAlignment} {oldV newV : Value}
    {e : AlignmentError} (hv : validateAlign g a oldV newV = some e) :
    tryAlign g a oldV newV = a := by
  simp [tryAlign, align, hv]

theorem tryAlign_of_validate_none {g : Arena} {a : DiffAlignment} {h1 h2 : Nat}
    (hv : validateAlign g a (.node h1) (.node h2) = none) :
    tryAlign g a (.node h1) (.node h2) =
      { a with table := a.table ++ [(h1, h2)] } := by
  simp [tryAlign, align, hv]

theorem tryAlign_old_new (g : Arena) (a : DiffAlignment) (oldV newV : Value) :
    (tryAlign g a oldV newV).old = a.old ∧ (tryAlign g a oldV newV).new = a.new := by
  unfold tryAlign align
  cases validateAlign g a oldV newV with
  | some e => exact ⟨rfl, rfl⟩
  | none =>
    cases oldV with
    | leaf x => exact ⟨rfl, rfl⟩
    | node h1 =>
      cases newV with
      | leaf y => exact ⟨rfl, rfl⟩
      | node h2 => exact ⟨rfl, rfl⟩

theorem tryAlign_table_extends (g : Arena) (a : DiffAlignment) (oldV newV : Value) :
    (tryAlign g a oldV newV).table = a.table ∨
      ∃ h1 h2, oldV = .node h1 ∧ newV = .node h2 ∧
        validateAlign g a oldV newV = none ∧
        (tryAlign g a oldV newV).table = a.table ++ [(h1, h2)] := by
  cases hv : validateAlign g a oldV newV with
  | some e => exact Or.inl (by rw [tryAlign_of_validate_some hv])
  | none =>
    cases oldV with
    | leaf x =>
      exact absurd ((validateAlign_eq_none_iff _ _ _ _).mp hv).1 (by simp [isMemoizable])
    | node h1 =>
      cases newV with
      | leaf y =>
        exact absurd ((validateAlign_eq_none_iff _ _ _ _).mp hv).2.1 (by simp [isMemoizable])
      | node h2 =>
        exact Or.inr ⟨h1, h2, rfl, rfl, rfl, by rw [tryAlign_of_validate_none hv]⟩

/-! ## Claim C8: align_by_id -/

theorem validateAlign_diag {g : Arena} {a : DiffAlignment} {h : Nat}
    (hno : isOldValueAligned a (.node h) = false)
    (hnn : isNewValueAligned a (.node h) = false) :
    validateAlign g a (.node h) (.node h) = none :=
  (validateAlign_eq_none_iff g a (.node h) (.node h)).mpr
    ⟨rfl, rfl, rfl, hno, hnn, seqLenMismatch_self g (.node h)⟩

theorem alignById_fold_inv (g : Arena) (oldIds : List Nat) :
    ∀ (l : List Nat) (a : DiffAlignment), (∀ x ∈ a.table, x.1 = x.2) →
      ∀ x, (x ∈ (l.foldl
            (fun a2 h => if h ∈ oldIds then tryAlign g a2 (.node h) (.node h) else a2)
            a).table ↔
        (x ∈ a.table ∨ ∃ h, x = (h, h) ∧ h ∈ l ∧ h ∈ oldIds)) := by
  intro l
  induction l with
  | nil =>
    intro a _ x
    simp
  | cons h0 rest ih =>
    intro a hdiag x
    simp only [List.foldl_cons]
    by_cases hmem : h0 ∈ oldIds
    · simp only [if_pos hmem]
      by_cases hOld : isOldValueAligned a (.node h0) = true
      · have hpair : (h0, h0) ∈ a.table := by
          rcases isOldValueAligned_iff.mp hOld with ⟨pr, hm, hp1⟩
          have hp2 := hdiag pr hm
          have : pr = (h0, h0) := by
            rcases pr with ⟨u, w⟩
            simp only at hp1 hp2
            rw [hp1] at hp2 ⊢
            rw [← hp2]
          rw [← this]; exact hm
        have hval : validateAlign g a (.node h0) (.node h0) = some .oldAlreadyAligned := by
          simp [validateAlign, isMemoizable, hOld]
        rw [tryAlign_of_validate_some hval]
        rw [ih a hdiag x]
        constructor
        · rintro (hx | ⟨h, hxe, hhl, hho⟩)
          · exact Or.inl hx
          · exact Or.inr ⟨h, hxe, List.mem_cons_of_mem _ hhl, hho⟩
        · rintro (hx | ⟨h, hxe, hhl, hho⟩)
          · exact Or.inl hx
          · rcases List.mem_cons.mp hhl with he | hhl2
            · exact Or.inl (by rw [hxe, he]; exact hpair)
            · exact Or.inr ⟨h, hxe, hhl2, hho⟩
      · have hOld2 : isOldValueAligned a (.node h0) = false := by
          cases hb : isOldValueAligned a (.node h0) with
          | false => rfl
          | true => exact absurd hb hOld
        have hNew2 : isNewValueAligned a (.node h0) = false := by
          cases hb : isNewValueAligned a (.node h0) with
          | false => rfl
          | true =>
            exfalso
            rcases isNewValueAligned_iff.mp hb with ⟨pr, hm, hp2⟩
            have hp1 := hdiag pr hm
            exact hOld (isOldValueAligned_iff.mpr ⟨pr, hm, by rw [hp1, hp2]⟩)
        have hval := validateAlign_diag (g := g) hOld2 hNew2
        rw [tryAlign_of_validate_none hval]
        have hdiag2 : ∀ x2 ∈ ({ a with table := a.table ++ [(h0, h0)] } :
            DiffAlignment).table, x2.1 = x2.2 := by
          intro x2 hx2
          rcases List.mem_append.mp hx2 with hx2a | hx2b
          · exact hdiag x2 hx2a
          · rw [List.mem_singleton.mp hx2b]
        rw [ih _ hdiag2 x]
        simp only [List.mem_append, List.mem_singleton]
        constructor
        · rintro ((hx | hx) | ⟨h, hxe, hhl, hho⟩)
          · exact Or.inl hx
          · exact Or.inr ⟨h0, hx, List.mem_cons_self _ _, hmem⟩
          · exact Or.inr ⟨h, hxe, List.mem_cons_of_mem _ hhl, hho⟩
        · rintro (hx | ⟨h, hxe, hhl, hho⟩)
          · exact Or.inl (Or.inl hx)
          · rcases List.mem_cons.mp hhl with he | hhl2
            · exact Or.inl (Or.inr (by rw [hxe, he]))
            · exact Or.inr ⟨h, hxe, hhl2, hho⟩
    · simp only [if_neg hmem]
      rw [ih a hdiag x]
      constructor
      · rintro (hx | ⟨h, hxe, hhl, hho⟩)
        · exact Or.inl hx
        · exact Or.inr ⟨h, hxe, List.mem_cons_of_mem _ hhl, hho⟩
      · rintro (hx | ⟨h, hxe, hhl, hho⟩)
        · exact Or.inl hx
        · rcases List.mem_cons.mp hhl with he | hhl2
          · exact absurd (he ▸ hho) hmem
          · exact Or.inr ⟨h, hxe, hhl2, hho⟩

/-- C8: `align_by_id` produces exactly the diagonal pairs over nodes that
are literally the same node reachable from both roots (membership depends
only on reachability, not traversal order); in particular `align_by_id(G,
G)` aligns every memoizable node of `G` to itself. -/
theorem align_by_id_spec (g : Arena) (hw : wfArena g = true) (oldRoot newRoot : Value)
    (hfo : fuelOk (graphFuel g) oldRoot) (hfn : fuelOk (graphFuel g) newRoot) :
    (∀ x, x ∈ (alignById g oldRoot newRoot).table ↔
      (∃ h, x = (h, h) ∧ (∃ p, resolve g oldRoot p = some (.node h)) ∧
        (∃ q, resolve g newRoot q = some (.node h)))) ∧
    (∀ h p, resolve g oldRoot p = some (.node h) →
      (h, h) ∈ (alignById g oldRoot oldRoot).table) := by
  have hchar : ∀ (r1 r2 : Value), fuelOk (graphFuel g) r1 → fuelOk (graphFuel g) r2 →
      ∀ x, x ∈ (alignById g r1 r2).table ↔
        (∃ h, x = (h, h) ∧ (∃ p, resolve g r1 p = some (.node h)) ∧
          (∃ q, resolve g r2 q = some (.node h))) := by
    intro r1 r2 hf1 hf2 x
    unfold alignById
    rw [alignById_fold_inv g (reachList g (graphFuel g) r1)
      (reachList g (graphFuel g) r2) ⟨r1, r2, []⟩ (by intro x2 hx2; cases hx2) x]
    simp only [List.not_mem_nil, false_or]
    constructor
    · rintro ⟨h, hxe, hhn, hho⟩
      exact ⟨h, hxe, (reachList_mem_iff hw hf1 h).mp hho,
        (reachList_mem_iff hw hf2 h).mp hhn⟩
    · rintro ⟨h, hxe, hp, hq⟩
      exact ⟨h, hxe, (reachList_mem_iff hw hf2 h).mpr hq,
        (reachList_mem_iff hw hf1 h).mpr hp⟩
  refine ⟨hchar oldRoot newRoot hfo hfn, ?_⟩
  intro h p hp
  exact (hchar oldRoot oldRoot hfo hfo (h, h)).mpr ⟨h, rfl, ⟨p, hp⟩, ⟨p, hp⟩⟩

/-- C8 witness: a two-node graph whose child node is shared by both roots. -/
theorem align_by_id_spec_witness :
    (1, 1) ∈ (alignById [.sequence [], .sequence [.node 0, .node 0]]
      (.node 1) (.node 1)).table :=
  (align_by_id_spec [.sequence [], .sequence [.node 0, .node 0]] (by decide)
    (.node 1) (.node 1) (by simp [fuelOk, graphFuel]) (by simp [fuelOk, graphFuel])).2
    1 [] rfl

/-! ## Claim C7: the heuristic alignment -/

theorem oneToOne_append {a : DiffAlignment} {h1 h2 : Nat}
    (hfun : tableFunctional a) (hinj : tableInjective a)
    (hno : ∀ pr ∈ a.table, pr.1 ≠ h1) (hnn : ∀ pr ∈ a.table, pr.2 ≠ h2) :
    tableFunctional { a with table := a.table ++ [(h1, h2)] } ∧
    tableInjective { a with table := a.table ++ [(h1, h2)] } := by
  constructor
  · intro pr hpr pr' hpr' he
    simp only [List.mem_append, List.mem_singleton] at hpr hpr'
    rcases hpr with hpr | hpr <;> rcases hpr' with hpr' | hpr'
    · exact hfun pr hpr pr' hpr' he
    · exact absurd (by rw [he, hpr']) (hno pr hpr)
    · exact absurd (by rw [← he, hpr]) (hno pr' hpr')
    · rw [hpr, hpr']
  · intro pr hpr pr' hpr' he
    simp only [List.mem_append, List.mem_singleton] at hpr hpr'
    rcases hpr with hpr | hpr <;> rcases hpr' with hpr' | hpr'
    · exact hinj pr hpr pr' hpr' he
    · exact absurd (by rw [he, hpr']) (hnn pr hpr)
    · exact absurd (by rw [← he, hpr]) (hnn pr' hpr')
    · rw [hpr, hpr']

theorem tryAlign_oneToOne {g : Arena} {a : DiffAlignment} {oldV newV : Value}
    (h : tableFunctional a ∧ tableInjective a) :
    tableFunctional (tryAlign g a oldV newV) ∧
    tableInjective (tryAlign g a oldV newV) := by
  rcases tryAlign_table_extends g a oldV newV with hsame | ⟨h1, h2, ho, hn, hval, happ⟩
  · constructor
    · intro pr hpr pr' hpr' he
      rw [hsame] at hpr hpr'
      exact h.1 pr hpr pr' hpr' he
    · intro pr hpr pr' hpr' he
      rw [hsame] at hpr hpr'
      exact h.2 pr hpr pr' hpr' he
  · subst ho; subst hn
    have hc := (validateAlign_eq_none_iff _ _ _ _).mp hval
    have hno : ∀ pr ∈ a.table, pr.1 ≠ h1 := by
      intro pr hpr he
      have := isOldValueAligned_iff.mpr ⟨pr, hpr, he⟩
      rw [hc.2.2.2.1] at this
      cases this
    have hnn : ∀ pr ∈ a.table, pr.2 ≠ h2 := by
      intro pr hpr he
      have := isNewValueAligned_iff.mpr ⟨pr, hpr, he⟩
      rw [hc.2.2.2.2.1] at this
      cases this
    have hres := oneToOne_append h.1 h.2 hno hnn
    constructor
    · intro pr hpr pr' hpr' he
      rw [happ] at hpr hpr'
      exact hres.1 pr hpr pr' hpr' he
    · intro pr hpr pr' hpr' he
      rw [happ] at hpr hpr'
      exact hres.2 pr hpr pr' hpr' he

theorem tryAlign_table_extends_any (g : Arena) (a : DiffAlignment) (oldV newV : Value) :
    ∃ t, (tryAlign g a oldV newV).table = a.table ++ t := by
  rcases tryAlign_table_extends g a oldV newV with hsame | ⟨h1, h2, _, _, _, happ⟩
  · exact ⟨[], by simp [hsame]⟩
  · exact ⟨[(h1, h2)], happ⟩

/-- The combined invariant carried through every alignment-strategy fold:
the table only grows, the roots are unchanged, and one-to-one-ness is
preserved. -/
def StratInv (base : DiffAlignment) (a : DiffAlignment) : Prop :=
  (∃ t, a.table = base.table ++ t) ∧ a.old = base.old ∧ a.new = base.new ∧
    tableFunctional a ∧ tableInjective a

theorem StratInv_tryAlign {base : DiffAlignment} {a : DiffAlignment}
    (h : StratInv base a) (g : Arena) (oldV newV : Value) :
    StratInv base (tryAlign g a oldV newV) := by
  rcases h with ⟨⟨t, ht⟩, hold, hnew, hfun, hinj⟩
  rcases tryAlign_table_extends_any g a oldV newV with ⟨t2, ht2⟩
  refine ⟨⟨t ++ t2, by rw [ht2, ht, List.append_assoc]⟩, ?_, ?_, ?_⟩
  · rw [(tryAlign_old_new g a oldV newV).1, hold]
  · rw [(tryAlign_old_new g a oldV newV).2, hnew]
  · exact tryAlign_oneToOne ⟨hfun, hinj⟩

theorem StratInv_refl (a : DiffAlignment) (hfun : tableFunctional a)
    (hinj : tableInjective a) : StratInv a a :=
  ⟨⟨[], by simp⟩, rfl, rfl, hfun, hinj⟩

theorem StratInv_trans {a b c : DiffAlignment} (h1 : StratInv a b)
    (h2 : StratInv b c) : StratInv a c := by
  rcases h1 with ⟨⟨t1, ht1⟩, ho1, hn1, _, _⟩
  rcases h2 with ⟨⟨t2, ht2⟩, ho2, hn2, hf2, hi2⟩
  exact ⟨⟨t1 ++ t2, by rw [ht2, ht1, List.append_assoc]⟩,
    by rw [ho2, ho1], by rw [hn2, hn1], hf2, hi2⟩

theorem alignById_StratInv (g : Arena) (oldRoot newRoot : Value) :
    StratInv ⟨oldRoot, newRoot, []⟩ (alignById g oldRoot newRoot) := by
  unfold alignById
  refine @foldl_preserve _ _ (StratInv ⟨oldRoot, newRoot, []⟩) _ _ _
    (StratInv_refl _ (by intro pr hpr; cases hpr) (by intro pr hpr; cases hpr)) ?_
  intro s h _ hs
  by_cases hmem : h ∈ reachList g (graphFuel g) oldRoot
  · rw [if_pos hmem]
    exact StratInv_tryAlign hs g _ _
  · rw [if_neg hmem]
    exact hs

theorem alignByPathPhase_StratInv (g : Arena) (a0 : DiffAlignment)
    (hfun : tableFunctional a0) (hinj : tableInjective a0) :
    StratInv a0 (alignByPathPhase g a0) := by
  unfold alignByPathPhase
  refine @foldl_preserve _ _ (StratInv a0) _ _ _ (StratInv_refl _ hfun hinj) ?_
  intro s pv _ hs
  cases hr : resolve g s.new pv.1 with
  | none => exact hs
  | some nv => exact StratInv_tryAlign hs g _ _

theorem alignByEqualityPhase_StratInv (g : Arena) (a0 : DiffAlignment)
    (hfun : tableFunctional a0) (hinj : tableInjective a0) :
    StratInv a0 (alignByEqualityPhase g a0) := by
  unfold alignByEqualityPhase
  refine @foldl_preserve _ _ (StratInv a0) _ _ _ (StratInv_refl _ hfun hinj) ?_
  intro s ho _ hs
  by_cases hal : (newFromOld s ho).isSome = true
  · rw [if_pos hal]
    exact hs
  · rw [if_neg hal]
    cases hfind : (reachList g (graphFuel g) s.new).find?
        (fun hn => !(oldFromNew s hn).isSome && valueEqF g (graphFuel g) (.node ho) (.node hn)) with
    | none => exact hs
    | some hn => exact StratInv_tryAlign hs g _ _

theorem alignHeuristically_StratInv (g : Arena) (oldRoot newRoot : Value) :
    StratInv ⟨oldRoot, newRoot, []⟩ (alignHeuristically g oldRoot newRoot) := by
  unfold alignHeuristically
  have h1 := alignById_StratInv g oldRoot newRoot
  have h2 := alignByPathPhase_StratInv g (alignById g oldRoot newRoot)
    h1.2.2.2.1 h1.2.2.2.2
  have h3 := alignByEqualityPhase_StratInv g
    (alignByPathPhase g (alignById g oldRoot newRoot)) h2.2.2.2.1 h2.2.2.2.2
  exact StratInv_trans h1 (StratInv_trans h2 h3)

/-- C7: the heuristic alignment always contains the identity-phase
alignment (`align_by_id`) as a subset, and since every phase skips rather
than raises on conflicts, the result still satisfies the one-to-one
alignment invariant that `align` would have enforced. -/
theorem heuristic_contains_by_id (g : Arena) (oldRoot newRoot : Value) :
    (∀ x ∈ (alignById g oldRoot newRoot).table,
      x ∈ (alignHeuristically g oldRoot newRoot).table) ∧
    tableFunctional (alignHeuristically g oldRoot newRoot) ∧
    tableInjective (alignHeuristically g oldRoot newRoot) := by
  have h1 := alignById_StratInv g oldRoot newRoot
  have h2 := alignByPathPhase_StratInv g (alignById g oldRoot newRoot)
    h1.2.2.2.1 h1.2.2.2.2
  have h3 := alignByEqualityPhase_StratInv g
    (alignByPathPhase g (alignById g oldRoot newRoot)) h2.2.2.2.1 h2.2.2.2.2
  have hcomp := StratInv_trans h2 h3
  rcases hcomp with ⟨⟨t, ht⟩, _, _, hfun, hinj⟩
  refine ⟨?_, ?_, ?_⟩
  · intro x hx
    show x ∈ (alignByEqualityPhase g (alignByPathPhase g (alignById g oldRoot newRoot))).table
    rw [ht]
    exact List.mem_append.mpr (Or.inl hx)
  · exact hfun
  · exact hinj

/-- C7 witness: a concrete pair of graphs where the by-id pair survives in
the heuristic result. -/
theorem heuristic_contains_by_id_witness :
    (0, 0) ∈ (alignHeuristically [.sequence [], .sequence [.node 0],
      .sequence [.node 0]] (.node 1) (.node 2)).table :=
  (heuristic_contains_by_id [.sequence [], .sequence [.node 0], .sequence [.node 0]]
    (.node 1) (.node 2)).1 (0, 0) (by decide)

/-! ## References occurring in diff output -/

mutual

def refsOfDV : DiffValue → List Reference
  | .leaf _ => []
  | .ref r => [r]
  | .callable _ => []
  | .compound _ _ args => refsOfPairs args
  | .sequence elts => refsOfList elts
  | .mapping entries => refsOfPairs entries

def refsOfPairs : List (String × DiffValue) → List Reference
  | [] => []
  | (_, v) :: rest => refsOfDV v ++ refsOfPairs rest

def refsOfList : List DiffValue → List Reference
  | [] => []
  | v :: rest => refsOfDV v ++ refsOfList rest

end

/-- The references contained in one diff operation. -/
def refsOfOp : DiffOperation → List Reference
  | .modifyValue v => refsOfDV v
  | .setValue v => refsOfDV v
  | .deleteValue => []

theorem mem_refsOfPairs {r : Reference} :
    ∀ {l : List (String × DiffValue)},
      r ∈ refsOfPairs l ↔ ∃ pr ∈ l, r ∈ refsOfDV pr.2 := by
  intro l
  induction l with
  | nil => simp [refsOfPairs]
  | cons a rest ih =>
    rcases a with ⟨n, v⟩
    simp only [refsOfPairs, List.mem_append, ih, List.mem_cons]
    constructor
    · rintro (hh | ⟨pr, hm, hr⟩)
      · exact ⟨(n, v), Or.inl rfl, hh⟩
      · exact ⟨pr, Or.inr hm, hr⟩
    · rintro ⟨pr, hm | hm, hr⟩
      · exact Or.inl (by rw [hm] at hr; exact hr)
      · exact Or.inr ⟨pr, hm, hr⟩

theorem mem_refsOfList {r : Reference} :
    ∀ {l : List DiffValue}, r ∈ refsOfList l ↔ ∃ v ∈ l, r ∈ refsOfDV v := by
  intro l
  induction l with
  | nil => simp [refsOfList]
  | cons v rest ih =>
    simp only [refsOfList, List.mem_append, ih, List.mem_cons]
    constructor
    · rintro (hh | ⟨v2, hm, hr⟩)
      · exact ⟨v, Or.inl rfl, hh⟩
      · exact ⟨v2, Or.inr hm, hr⟩
    · rintro ⟨v2, hm | hm, hr⟩
      · exact Or.inl (by rw [hm] at hr; exact hr)
      · exact Or.inr ⟨v2, hm, hr⟩

/-- A reference is valid w.r.t. the old graph and a bound on new-shared-value
slots: old-graph references resolve, slot references stay below the bound. -/
def refOk (g : Arena) (old : Value) (k : Nat) : Reference → Prop
  | .oldRef p => ∃ w, resolve g old p = some w
  | .newSharedRef j => j < k

theorem refOk_mono {g : Arena} {old : Value} {k k' : Nat} (hk : k ≤ k')
    {r : Reference} (h : refOk g old k r) : refOk g old k' r := by
  cases r with
  | oldRef p => exact h
  | newSharedRef j => exact Nat.lt_of_lt_of_le h hk

theorem find?_append_none {α : Type} {p : α → Bool} {l1 : List α}
    (h : l1.find? p = none) (l2 : List α) :
    (l1 ++ l2).find? p = l2.find? p := by
  induction l1 with
  | nil => rfl
  | cons x rest ih =>
    rw [List.find?_eq_none] at h
    have hx : p x = false := by
      cases hb : p x with
      | false => rfl
      | true => exact absurd hb (h x (List.mem_cons_self _ _))
    rw [List.cons_append, List.find?_cons_of_neg _ (by simp [hx])]
    exact ih (List.find?_eq_none.mpr (fun y hy => h y (List.mem_cons_of_mem _ hy)))

theorem slotOf_none_keys {s : BuilderState} {h : Nat} (hs : slotOf s h = none) :
    ∀ pr ∈ s.slotById, pr.1 ≠ h := by
  intro pr hpr he
  unfold slotOf at hs
  rw [Option.map_eq_none'] at hs
  have := List.find?_eq_none.mp hs pr hpr
  simp [he] at this

theorem slotOf_keys_none {s : BuilderState} {h : Nat}
    (hk : ∀ pr ∈ s.slotById, pr.1 ≠ h) : slotOf s h = none := by
  unfold slotOf
  rw [Option.map_eq_none']
  exact List.find?_eq_none.mpr (fun pr hpr => by simpa using hk pr hpr)

/-! ## Slot keys added by the value-rewriting pass -/

theorem convPairs_slot_keys {f : BuilderState → Value → DiffValue × BuilderState}
    (hf : ∀ (s : BuilderState) (v : Value), ∀ pr ∈ (f s v).2.slotById,
      pr ∈ s.slotById ∨ ∃ hb, v = Value.node hb ∧ pr.1 ≤ hb) :
    ∀ (l : List (String × Value)) (s : BuilderState),
      ∀ pr ∈ (convPairs f s l).2.slotById,
        pr ∈ s.slotById ∨
          ∃ hb, Value.node hb ∈ l.map (fun a => a.2) ∧ pr.1 ≤ hb := by
  intro l
  induction l with
  | nil => intro s pr hpr; exact Or.inl hpr
  | cons a rest ih =>
    intro s pr hpr
    rcases a with ⟨n, v⟩
    rcases hfv : f s v with ⟨dv, s1⟩
    rcases hcp : convPairs f s1 rest with ⟨rest2, s2⟩
    simp only [convPairs, hfv, hcp] at hpr
    have hpr2 : pr ∈ s2.slotById := hpr
    have := ih s1 pr (by rw [hcp]; exact hpr2)
    rcases this with hin | ⟨hb, hm, hle⟩
    · have := hf s v pr (by rw [hfv]; exact hin)
      rcases this with hin2 | ⟨hb, hv, hle⟩
      · exact Or.inl hin2
      · exact Or.inr ⟨hb, by simp only [List.map_cons]; rw [← hv]; exact List.mem_cons_self _ _, hle⟩
    · exact Or.inr ⟨hb, by simp only [List.map_cons]; exact List.mem_cons_of_mem _ hm, hle⟩

theorem convVals_slot_keys {f : BuilderState → Value → DiffValue × BuilderState}
    (hf : ∀ (s : BuilderState) (v : Value), ∀ pr ∈ (f s v).2.slotById,
      pr ∈ s.slotById ∨ ∃ hb, v = Value.node hb ∧ pr.1 ≤ hb) :
    ∀ (l : List Value) (s : BuilderState),
      ∀ pr ∈ (convVals f s l).2.slotById,
        pr ∈ s.slotById ∨ ∃ hb, Value.node hb ∈ l ∧ pr.1 ≤ hb := by
  intro l
  induction l with
  | nil => intro s pr hpr; exact Or.inl hpr
  | cons v rest ih =>
    intro s pr hpr
    rcases hfv : f s v with ⟨dv, s1⟩
    rcases hcp : convVals f s1 rest with ⟨rest2, s2⟩
    simp only [convVals, hfv, hcp] at hpr
    have hpr2 : pr ∈ s2.slotById := hpr
    have := ih s1 pr (by rw [hcp]; exact hpr2)
    rcases this with hin | ⟨hb, hm, hle⟩
    · have := hf s v pr (by rw [hfv]; exact hin)
      rcases this with hin2 | ⟨hb, hv, hle⟩
      · exact Or.inl hin2
      · exact Or.inr ⟨hb, by rw [← hv]; exact List.mem_cons_self _ _, hle⟩
    · exact Or.inr ⟨hb, List.mem_cons_of_mem _ hm, hle⟩

/-- Slot entries added while rewriting a value all have handles bounded by
the value's own handle (children have strictly smaller handles, the value
itself may be hoisted last). -/
theorem diffValueF_slot_keys (g : Arena) (a : DiffAlignment) (hw : wfArena g = true) :
    ∀ (fuel : Nat) (s : BuilderState) (v : Value),
      ∀ pr ∈ (diffValueF g a fuel s v).2.slotById,
        pr ∈ s.slotById ∨ ∃ hb, v = Value.node hb ∧ pr.1 ≤ hb := by
  intro fuel
  induction fuel with
  | zero =>
    intro s v pr hpr
    cases v with
    | leaf x => exact Or.inl hpr
    | node h => exact Or.inl hpr
  | succ fuel ih =>
    intro s v pr hpr
    cases v with
    | leaf x => exact Or.inl hpr
    | node h =>
      simp only [diffValueF] at hpr
      cases hofn : oldFromNew a h with
      | some ho =>
        rw [hofn] at hpr
        exact Or.inl hpr
      | none =>
        rw [hofn] at hpr
        simp only at hpr
        cases hslot : slotOf s h with
        | some i =>
          rw [hslot] at hpr
          exact Or.inl hpr
        | none =>
          rw [hslot] at hpr
          simp only at hpr
          cases hg : g[h]? with
          | none =>
            rw [hg] at hpr
            simp only at hpr
            split at hpr
            · simp only [List.mem_append, List.mem_singleton] at hpr
              rcases hpr with hpr | hpr
              · exact Or.inl hpr
              · exact Or.inr ⟨h, rfl, by rw [hpr]⟩
            · exact Or.inl hpr
          | some c =>
            rw [hg] at hpr
            have hbnd : ∀ v2 ∈ contentVals c, valueBound h v2 = true :=
              (wfArena_spec hw hg).1
            cases c with
            | compound k tag args =>
              simp only at hpr
              rcases hcp : convPairs (diffValueF g a fuel) s args with ⟨dargs, s1⟩
              rw [hcp] at hpr
              simp only at hpr
              have hkey : ∀ pr2 ∈ s1.slotById, pr2 ∈ s.slotById ∨ pr2.1 < h := by
                intro pr2 hpr2
                have := convPairs_slot_keys (fun s2 v2 => ih s2 v2) args s
                  pr2 (by rw [hcp]; exact hpr2)
                rcases this with hin | ⟨hb, hm, hle⟩
                · exact Or.inl hin
                · refine Or.inr ?_
                  have := hbnd (Value.node hb) hm
                  simp only [valueBound, decide_eq_true_eq] at this
                  omega
              split at hpr
              · simp only [List.mem_append, List.mem_singleton] at hpr
                rcases hpr with hpr | hpr
                · rcases hkey pr hpr with hin | hlt
                  · exact Or.inl hin
                  · exact Or.inr ⟨h, rfl, by omega⟩
                · exact Or.inr ⟨h, rfl, by rw [hpr]⟩
              · rcases hkey pr hpr with hin | hlt
                · exact Or.inl hin
                · exact Or.inr ⟨h, rfl, by omega⟩
            | sequence elts =>
              simp only at hpr
              rcases hcp : convVals (diffValueF g a fuel) s elts with ⟨delts, s1⟩
              rw [hcp] at hpr
              simp only at hpr
              have hkey : ∀ pr2 ∈ s1.slotById, pr2 ∈ s.slotById ∨ pr2.1 < h := by
                intro pr2 hpr2
                have := convVals_slot_keys (fun s2 v2 => ih s2 v2) elts s
                  pr2 (by rw [hcp]; exact hpr2)
                rcases this with hin | ⟨hb, hm, hle⟩
                · exact Or.inl hin
                · refine Or.inr ?_
                  have := hbnd (Value.node hb) hm
                  simp only [valueBound, decide_eq_true_eq] at this
                  omega
              split at hpr
              · simp only [List.mem_append, List.mem_singleton] at hpr
                rcases hpr with hpr | hpr
                · rcases hkey pr hpr with hin | hlt
                  · exact Or.inl hin
                  · exact Or.inr ⟨h, rfl, by omega⟩
                · exact Or.inr ⟨h, rfl, by rw [hpr]⟩
              · rcases hkey pr hpr with hin | hlt
                · exact Or.inl hin
                · exact Or.inr ⟨h, rfl, by omega⟩
            | mapping entries =>
              simp only at hpr
              rcases hcp : convPairs (diffValueF g a fuel) s entries with ⟨dents, s1⟩
              rw [hcp] at hpr
              simp only at hpr
              have hkey : ∀ pr2 ∈ s1.slotById, pr2 ∈ s.slotById ∨ pr2.1 < h := by
                intro pr2 hpr2
                have := convPairs_slot_keys (fun s2 v2 => ih s2 v2) entries s
                  pr2 (by rw [hcp]; exact hpr2)
                rcases this with hin | ⟨hb, hm, hle⟩
                · exact Or.inl hin
                · refine Or.inr ?_
                  have := hbnd (Value.node hb) hm
                  simp only [valueBound, decide_eq_true_eq] at this
                  omega
              split at hpr
              · simp only [List.mem_append, List.mem_singleton] at hpr
                rcases hpr with hpr | hpr
                · rcases hkey pr hpr with hin | hlt
                  · exact Or.inl hin
                  · exact Or.inr ⟨h, rfl, by omega⟩
                · exact Or.inr ⟨h, rfl, by rw [hpr]⟩
              · rcases hkey pr hpr with hin | hlt
                · exact Or.inl hin
                · exact Or.inr ⟨h, rfl, by omega⟩

/-! ## The builder-state invariant -/

/-- The invariant carried by the diff builder's state: slot indices are
valid and in one-to-one correspondence with hoisted handles, every
new-shared-value entry only references the old graph or strictly earlier
slots, and every emitted change only references the old graph or existing
slots. -/
structure BuildInv (g : Arena) (a : DiffAlignment) (s : BuilderState) : Prop where
  slot_lt : ∀ pr ∈ s.slotById, pr.2 < s.newSharedValues.length
  slot_inj : ∀ pr ∈ s.slotById, ∀ pr' ∈ s.slotById, pr.2 = pr'.2 → pr.1 = pr'.1
  slot_fun : ∀ pr ∈ s.slotById, ∀ pr' ∈ s.slotById, pr.1 = pr'.1 → pr.2 = pr'.2
  entries : ∀ i dv, s.newSharedValues[i]? = some dv → ∀ r ∈ refsOfDV dv, refOk g a.old i r
  changes_ok : ∀ pq ∈ s.changes, ∀ r ∈ refsOfOp pq.2,
    refOk g a.old s.newSharedValues.length r

/-- A completed alignment is good for the builder when the old side of
every pair is reachable in the old graph (so its path can be referenced). -/
def GoodAlignment (g : Arena) (a : DiffAlignment) : Prop :=
  ∀ pr ∈ a.table, ∃ p, resolve g a.old p = some (.node pr.1)

theorem BuildInv_initial (g : Arena) (a : DiffAlignment) :
    BuildInv g a initialState := by
  refine ⟨?_, ?_, ?_, ?_, ?_⟩
  · intro pr hpr; cases hpr
  · intro pr hpr; cases hpr
  · intro pr hpr; cases hpr
  · intro i dv hdv; simp [initialState] at hdv
  · intro pq hpq; cases hpq

/-- What one call of the value-rewriting pass guarantees. -/
def DVSpec (g : Arena) (a : DiffAlignment) (s : BuilderState)
    (out : DiffValue × BuilderState) : Prop :=
  BuildInv g a out.2 ∧
  (∃ t, out.2.newSharedValues = s.newSharedValues ++ t) ∧
  (∃ t, out.2.slotById = s.slotById ++ t) ∧
  out.2.changes = s.changes ∧
  (∀ r ∈ refsOfDV out.1, refOk g a.old out.2.newSharedValues.length r)

theorem convPairs_spec {g : Arena} {a : DiffAlignment}
    {f : BuilderState → Value → DiffValue × BuilderState}
    (hf : ∀ (s : BuilderState) (v : Value), BuildInv g a s → DVSpec g a s (f s v)) :
    ∀ (l : List (String × Value)) (s : BuilderState), BuildInv g a s →
      BuildInv g a (convPairs f s l).2 ∧
      (∃ t, (convPairs f s l).2.newSharedValues = s.newSharedValues ++ t) ∧
      (∃ t, (convPairs f s l).2.slotById = s.slotById ++ t) ∧
      (convPairs f s l).2.changes = s.changes ∧
      (∀ r ∈ refsOfPairs (convPairs f s l).1,
        refOk g a.old (convPairs f s l).2.newSharedValues.length r) := by
  intro l
  induction l with
  | nil =>
    intro s hs
    exact ⟨hs, ⟨[], by simp [convPairs]⟩, ⟨[], by simp [convPairs]⟩, rfl,
      by intro r hr; cases hr⟩
  | cons a2 rest ih =>
    intro s hs
    rcases a2 with ⟨n, v⟩
    rcases hfv : f s v with ⟨dv, s1⟩
    rcases hcp : convPairs f s1 rest with ⟨rest2, s2⟩
    have hwhole : convPairs f s ((n, v) :: rest) = ((n, dv) :: rest2, s2) := by
      simp [convPairs, hfv, hcp]
    rw [hwhole]
    have hdv := hf s v hs
    rw [hfv] at hdv
    dsimp only [DVSpec] at hdv
    have hrest := ih s1 hdv.1
    rw [hcp] at hrest
    rcases hdv with ⟨hinv1, ⟨t1, hns1⟩, ⟨u1, hsl1⟩, hch1, hrefs1⟩
    rcases hrest with ⟨hinv2, ⟨t2, hns2⟩, ⟨u2, hsl2⟩, hch2, hrefs2⟩
    refine ⟨hinv2, ⟨t1 ++ t2, by rw [hns2, hns1, List.append_assoc]⟩,
      ⟨u1 ++ u2, by rw [hsl2, hsl1, List.append_assoc]⟩,
      by rw [hch2, hch1], ?_⟩
    intro r hr
    simp only [refsOfPairs, List.mem_append] at hr
    rcases hr with hr | hr
    · refine refOk_mono ?_ (hrefs1 r hr)
      rw [hns2, List.length_append]
      omega
    · exact hrefs2 r hr

theorem convVals_spec {g : Arena} {a : DiffAlignment}
    {f : BuilderState → Value → DiffValue × BuilderState}
    (hf : ∀ (s : BuilderState) (v : Value), BuildInv g a s → DVSpec g a s (f s v)) :
    ∀ (l : List Value) (s : BuilderState), BuildInv g a s →
      BuildInv g a (convVals f s l).2 ∧
      (∃ t, (convVals f s l).2.newSharedValues = s.newSharedValues ++ t) ∧
      (∃ t, (convVals f s l).2.slotById = s.slotById ++ t) ∧
      (convVals f s l).2.changes = s.changes ∧
      (∀ r ∈ refsOfList (convVals f s l).1,
        refOk g a.old (convVals f s l).2.newSharedValues.length r) := by
  intro l
  induction l with
  | nil =>
    intro s hs
    exact ⟨hs, ⟨[], by simp [convVals]⟩, ⟨[], by simp [convVals]⟩, rfl,
      by intro r hr; cases hr⟩
  | cons v rest ih =>
    intro s hs
    rcases hfv : f s v with ⟨dv, s1⟩
    rcases hcp : convVals f s1 rest with ⟨rest2, s2⟩
    have hwhole : convVals f s (v :: rest) = (dv :: rest2, s2) := by
      simp [convVals, hfv, hcp]
    rw [hwhole]
    have hdv := hf s v hs
    rw [hfv] at hdv
    dsimp only [DVSpec] at hdv
    have hrest := ih s1 hdv.1
    rw [hcp] at hrest
    rcases hdv with ⟨hinv1, ⟨t1, hns1⟩, ⟨u1, hsl1⟩, hch1, hrefs1⟩
    rcases hrest with ⟨hinv2, ⟨t2, hns2⟩, ⟨u2, hsl2⟩, hch2, hrefs2⟩
    refine ⟨hinv2, ⟨t1 ++ t2, by rw [hns2, hns1, List.append_assoc]⟩,
      ⟨u1 ++ u2, by rw [hsl2, hsl1, List.append_assoc]⟩,
      by rw [hch2, hch1], ?_⟩
    intro r hr
    simp only [refsOfList, List.mem_append] at hr
    rcases hr with hr | hr
    · refine refOk_mono ?_ (hrefs1 r hr)
      rw [hns2, List.length_append]
      omega
    · exact hrefs2 r hr

/-- Hoisting a freshly built shared value preserves the invariant. -/
theorem hoist_step_inv {g : Arena} {a : DiffAlignment} {s1 : BuilderState}
    {h : Nat} {dv : DiffValue} (hs1 : BuildInv g a s1)
    (hfresh : ∀ pr ∈ s1.slotById, pr.1 ≠ h)
    (hrefs : ∀ r ∈ refsOfDV dv, refOk g a.old s1.newSharedValues.length r) :
    BuildInv g a ⟨s1.newSharedValues ++ [dv],
      s1.slotById ++ [(h, s1.newSharedValues.length)], s1.changes⟩ := by
  refine ⟨?_, ?_, ?_, ?_, ?_⟩
  · intro pr hpr
    simp only [List.mem_append, List.mem_singleton] at hpr
    simp only [List.length_append, List.length_singleton]
    rcases hpr with hpr | hpr
    · have := hs1.slot_lt pr hpr
      omega
    · rw [hpr]
      simp
  · intro pr hpr pr' hpr' he
    simp only [List.mem_append, List.mem_singleton] at hpr hpr'
    rcases hpr with hpr | hpr <;> rcases hpr' with hpr' | hpr'
    · exact hs1.slot_inj pr hpr pr' hpr' he
    · exfalso
      have := hs1.slot_lt pr hpr
      rw [he, hpr'] at this
      simp at this
    · exfalso
      have := hs1.slot_lt pr' hpr'
      rw [← he, hpr] at this
      simp at this
    · rw [hpr, hpr']
  · intro pr hpr pr' hpr' he
    simp only [List.mem_append, List.mem_singleton] at hpr hpr'
    rcases hpr with hpr | hpr <;> rcases hpr' with hpr' | hpr'
    · exact hs1.slot_fun pr hpr pr' hpr' he
    · exact absurd (by rw [he, hpr']) (hfresh pr hpr)
    · exact absurd (by rw [← he, hpr]) (hfresh pr' hpr')
    · rw [hpr, hpr']
  · intro i dv2 hdv2 r hr
    rw [List.getElem?_append] at hdv2
    by_cases hi : i < s1.newSharedValues.length
    · rw [if_pos hi] at hdv2
      exact hs1.entries i dv2 hdv2 r hr
    · rw [if_neg hi] at hdv2
      have hi0 : i - s1.newSharedValues.length = 0 := by
        rcases Nat.lt_or_ge (i - s1.newSharedValues.length) 1 with hlt | hge
        · omega
        · rw [List.getElem?_eq_none (by simpa using hge)] at hdv2
          cases hdv2
      rw [hi0] at hdv2
      simp only [List.getElem?_cons_zero, Option.some.injEq] at hdv2
      have hieq : i = s1.newSharedValues.length := by omega
      rw [hieq]
      rw [← hdv2] at hr
      exact hrefs r hr
  · intro pq hpq r hr
    refine refOk_mono ?_ (hs1.changes_ok pq hpq r hr)
    simp

/-- The master specification of the value-rewriting pass: it preserves the
builder invariant, only appends to the shared values and the slot table,
never emits changes, and produces a value whose references are all valid. -/
theorem diffValueF_spec (g : Arena) (a : DiffAlignment) (hw : wfArena g = true)
    (hga : GoodAlignment g a) (hfo : fuelOk (graphFuel g) a.old) :
    ∀ (fuel : Nat) (s : BuilderState) (v : Value), BuildInv g a s →
      DVSpec g a s (diffValueF g a fuel s v) := by
  intro fuel
  induction fuel with
  | zero =>
    intro s v hs
    cases v with
    | leaf x =>
      refine ⟨hs, ⟨[], by simp [diffValueF]⟩, ⟨[], by simp [diffValueF]⟩,
        by simp [diffValueF], ?_⟩
      intro r hr
      simp [diffValueF, refsOfDV] at hr
    | node h =>
      refine ⟨hs, ⟨[], by simp [diffValueF]⟩, ⟨[], by simp [diffValueF]⟩,
        by simp [diffValueF], ?_⟩
      intro r hr
      simp [diffValueF, refsOfDV] at hr
  | succ fuel ih =>
    intro s v hs
    cases v with
    | leaf x =>
      refine ⟨hs, ⟨[], by simp [diffValueF]⟩, ⟨[], by simp [diffValueF]⟩,
        by simp [diffValueF], ?_⟩
      intro r hr
      simp [diffValueF, refsOfDV] at hr
    | node h =>
      simp only [diffValueF]
      cases hofn : oldFromNew a h with
      | some ho =>
        refine ⟨hs, ⟨[], by simp⟩, ⟨[], by simp⟩, rfl, ?_⟩
        intro r hr
        simp only [refsOfDV, List.mem_singleton] at hr
        rw [hr]
        rcases Option.map_eq_some'.mp hofn with ⟨pr, hfind, hpr1⟩
        have hmem := List.mem_of_find?_eq_some hfind
        rcases hga pr hmem with ⟨p, hp⟩
        rw [hpr1] at hp
        rcases firstPathOf_isSome hw hfo hp with ⟨q, hq⟩
        have hqr := firstPathOf_resolve hw hfo hq
        simp only [refOk, hq, Option.getD_some]
        exact ⟨.node ho, hqr⟩
      | none =>
        simp only
        cases hslot : slotOf s h with
        | some i =>
          refine ⟨hs, ⟨[], by simp⟩, ⟨[], by simp⟩, rfl, ?_⟩
          intro r hr
          simp only [refsOfDV, List.mem_singleton] at hr
          rw [hr]
          rcases Option.map_eq_some'.mp hslot with ⟨pr, hfind, hpr2⟩
          have hmem := List.mem_of_find?_eq_some hfind
          have := hs.slot_lt pr hmem
          simp only [refOk]
          omega
        | none =>
          simp only
          have hfresh0 : ∀ pr ∈ s.slotById, pr.1 ≠ h := slotOf_none_keys hslot
          cases hg : g[h]? with
          | none =>
            simp only
            split
            · rename_i hnum
              refine ⟨hoist_step_inv hs hfresh0 (by intro r hr; cases hr),
                ⟨[.leaf 0], rfl⟩, ⟨[(h, s.newSharedValues.length)], rfl⟩, rfl, ?_⟩
              intro r hr
              simp only [refsOfDV, List.mem_singleton] at hr
              rw [hr]
              simp only [refOk, List.length_append, List.length_singleton]
              omega
            · exact ⟨hs, ⟨[], by simp⟩, ⟨[], by simp⟩, rfl, by intro r hr; cases hr⟩
          | some c =>
            have hbnd : ∀ v2 ∈ contentVals c, valueBound h v2 = true :=
              (wfArena_spec hw hg).1
            cases c with
            | compound k tag args =>
              simp only
              rcases hcp : convPairs (diffValueF g a fuel) s args with ⟨dargs, s1⟩
              dsimp only
              have hconv := convPairs_spec (fun s2 v2 hs2 => ih s2 v2 hs2) args s hs
              rw [hcp] at hconv
              rcases hconv with ⟨hinv1, ⟨t1, hns1⟩, ⟨u1, hsl1⟩, hch1, hrefs1⟩
              have hfresh : ∀ pr ∈ s1.slotById, pr.1 ≠ h := by
                intro pr hpr
                have := convPairs_slot_keys
                  (fun s2 v2 => diffValueF_slot_keys g a hw fuel s2 v2) args s
                  pr (by rw [hcp]; exact hpr)
                rcases this with hin | ⟨hb, hm, hle⟩
                · exact hfresh0 pr hin
                · have := hbnd (Value.node hb) hm
                  simp only [valueBound, decide_eq_true_eq] at this
                  omega
              split
              · rename_i hnum
                refine ⟨hoist_step_inv hinv1 hfresh hrefs1,
                  ⟨t1 ++ [.compound k tag dargs], by rw [hns1, List.append_assoc]⟩,
                  ⟨u1 ++ [(h, s1.newSharedValues.length)], by rw [hsl1, List.append_assoc]⟩,
                  hch1, ?_⟩
                intro r hr
                simp only [refsOfDV, List.mem_singleton] at hr
                rw [hr]
                simp only [refOk, List.length_append, List.length_singleton]
                omega
              · exact ⟨hinv1, ⟨t1, hns1⟩, ⟨u1, hsl1⟩, hch1, hrefs1⟩
            | sequence elts =>
              simp only
              rcases hcp : convVals (diffValueF g a fuel) s elts with ⟨delts, s1⟩
              dsimp only
              have hconv := convVals_spec (fun s2 v2 hs2 => ih s2 v2 hs2) elts s hs
              rw [hcp] at hconv
              rcases hconv with ⟨hinv1, ⟨t1, hns1⟩, ⟨u1, hsl1⟩, hch1, hrefs1⟩
              have hfresh : ∀ pr ∈ s1.slotById, pr.1 ≠ h := by
                intro pr hpr
                have := convVals_slot_keys
                  (fun s2 v2 => diffValueF_slot_keys g a hw fuel s2 v2) elts s
                  pr (by rw [hcp]; exact hpr)
                rcases this with hin | ⟨hb, hm, hle⟩
                · exact hfresh0 pr hin
                · have := hbnd (Value.node hb) hm
                  simp only [valueBound, decide_eq_true_eq] at this
                  omega
              split
              · rename_i hnum
                refine ⟨hoist_step_inv hinv1 hfresh hrefs1,
                  ⟨t1 ++ [.sequence delts], by rw [hns1, List.append_assoc]⟩,
                  ⟨u1 ++ [(h, s1.newSharedValues.length)], by rw [hsl1, List.append_assoc]⟩,
                  hch1, ?_⟩
                intro r hr
                simp only [refsOfDV, List.mem_singleton] at hr
                rw [hr]
                simp only [refOk, List.length_append, List.length_singleton]
                omega
              · exact ⟨hinv1, ⟨t1, hns1⟩, ⟨u1, hsl1⟩, hch1, hrefs1⟩
            | mapping entries =>
              simp only
              rcases hcp : convPairs (diffValueF g a fuel) s entries with ⟨dents, s1⟩
              dsimp only
              have hconv := convPairs_spec (fun s2 v2 hs2 => ih s2 v2 hs2) entries s hs
              rw [hcp] at hconv
              rcases hconv with ⟨hinv1, ⟨t1, hns1⟩, ⟨u1, hsl1⟩, hch1, hrefs1⟩
              have hfresh : ∀ pr ∈ s1.slotById, pr.1 ≠ h := by
                intro pr hpr
                have := convPairs_slot_keys
                  (fun s2 v2 => diffValueF_slot_keys g a hw fuel s2 v2) entries s
                  pr (by rw [hcp]; exact hpr)
                rcases this with hin | ⟨hb, hm, hle⟩
                · exact hfresh0 pr hin
                · have := hbnd (Value.node hb) hm
                  simp only [valueBound, decide_eq_true_eq] at this
                  omega
              split
              · rename_i hnum
                refine ⟨hoist_step_inv hinv1 hfresh hrefs1,
                  ⟨t1 ++ [.mapping dents], by rw [hns1, List.append_assoc]⟩,
                  ⟨u1 ++ [(h, s1.newSharedValues.length)], by rw [hsl1, List.append_assoc]⟩,
                  hch1, ?_⟩
                intro r hr
                simp only [refsOfDV, List.mem_singleton] at hr
                rw [hr]
                simp only [refOk, List.length_append, List.length_singleton]
                omega
              · exact ⟨hinv1, ⟨t1, hns1⟩, ⟨u1, hsl1⟩, hch1, hrefs1⟩

/-! ## The pair-processing pass preserves the invariant -/

/-- What every builder step that may emit changes guarantees. -/
def PPSpec (g : Arena) (a : DiffAlignment) (s out : BuilderState) : Prop :=
  BuildInv g a out ∧
  (∃ t, out.newSharedValues = s.newSharedValues ++ t) ∧
  (∃ t, out.slotById = s.slotById ++ t) ∧
  (∃ t, out.changes = s.changes ++ t)

theorem PPSpec_refl {g : Arena} {a : DiffAlignment} {s : BuilderState}
    (hs : BuildInv g a s) : PPSpec g a s s :=
  ⟨hs, ⟨[], by simp⟩, ⟨[], by simp⟩, ⟨[], by simp⟩⟩

theorem PPSpec_trans {g : Arena} {a : DiffAlignment} {s1 s2 s3 : BuilderState}
    (h12 : PPSpec g a s1 s2) (h23 : PPSpec g a s2 s3) : PPSpec g a s1 s3 := by
  rcases h12 with ⟨_, ⟨t1, ht1⟩, ⟨u1, hu1⟩, ⟨v1, hv1⟩⟩
  rcases h23 with ⟨hi, ⟨t2, ht2⟩, ⟨u2, hu2⟩, ⟨v2, hv2⟩⟩
  exact ⟨hi, ⟨t1 ++ t2, by rw [ht2, ht1, List.append_assoc]⟩,
    ⟨u1 ++ u2, by rw [hu2, hu1, List.append_assoc]⟩,
    ⟨v1 ++ v2, by rw [hv2, hv1, List.append_assoc]⟩⟩

theorem addChange_spec {g : Arena} {a : DiffAlignment} {s : BuilderState}
    (hs : BuildInv g a s) (p : Path) (op : DiffOperation)
    (hop : ∀ r ∈ refsOfOp op, refOk g a.old s.newSharedValues.length r) :
    PPSpec g a s (addChange s p op) := by
  refine ⟨⟨hs.slot_lt, hs.slot_inj, hs.slot_fun, hs.entries, ?_⟩,
    ⟨[], by simp [addChange]⟩, ⟨[], by simp [addChange]⟩, ⟨[(p, op)], rfl⟩⟩
  intro pq hpq r hr
  rcases List.mem_append.mp hpq with hpq | hpq
  · exact hs.changes_ok pq hpq r hr
  · rw [List.mem_singleton.mp hpq] at hr
    exact hop r hr

theorem processChild_spec (g : Arena) (a : DiffAlignment) (hw : wfArena g = true)
    (hga : GoodAlignment g a) (hfo : fuelOk (graphFuel g) a.old)
    (s : BuilderState) (basePath : Path) (st : PathStep)
    (oc nc : Option Value) (hs : BuildInv g a s) :
    PPSpec g a s (processChild g a s basePath st oc nc) := by
  cases oc with
  | none =>
    cases nc with
    | none => exact PPSpec_refl hs
    | some nv =>
      simp only [processChild]
      rcases hdv : diffValueF g a (graphFuel g) s nv with ⟨dv, s1⟩
      have hspec := diffValueF_spec g a hw hga hfo (graphFuel g) s nv hs
      rw [hdv] at hspec
      dsimp only [DVSpec] at hspec
      rcases hspec with ⟨hinv1, hns1, hsl1, hch1, hrefs1⟩
      have h12 : PPSpec g a s s1 := ⟨hinv1, hns1, hsl1, ⟨[], by rw [hch1]; simp⟩⟩
      exact PPSpec_trans h12 (addChange_spec hinv1 _ _ (by intro r hr; exact hrefs1 r hr))
  | some ov =>
    cases nc with
    | none =>
      simp only [processChild]
      exact addChange_spec hs _ _ (by intro r hr; cases hr)
    | some nv =>
      simp only [processChild]
      split
      · exact PPSpec_refl hs
      · rcases hdv : diffValueF g a (graphFuel g) s nv with ⟨dv, s1⟩
        have hspec := diffValueF_spec g a hw hga hfo (graphFuel g) s nv hs
        rw [hdv] at hspec
        dsimp only [DVSpec] at hspec
        rcases hspec with ⟨hinv1, hns1, hsl1, hch1, hrefs1⟩
        have h12 : PPSpec g a s s1 := ⟨hinv1, hns1, hsl1, ⟨[], by rw [hch1]; simp⟩⟩
        exact PPSpec_trans h12 (addChange_spec hinv1 _ _ (by intro r hr; exact hrefs1 r hr))

theorem foldl_PPSpec {g : Arena} {a : DiffAlignment} {α : Type}
    (f : BuilderState → α → BuilderState)
    (hstep : ∀ (s2 : BuilderState) (x : α), BuildInv g a s2 → PPSpec g a s2 (f s2 x)) :
    ∀ (l : List α) (s : BuilderState), BuildInv g a s → PPSpec g a s (l.foldl f s) := by
  intro l
  induction l with
  | nil => intro s hs; exact PPSpec_refl hs
  | cons x rest ih =>
    intro s hs
    have h1 := hstep s x hs
    exact PPSpec_trans h1 (ih (f s x) h1.1)

theorem processPair_spec (g : Arena) (a : DiffAlignment) (hw : wfArena g = true)
    (hga : GoodAlignment g a) (hfo : fuelOk (graphFuel g) a.old)
    (s : BuilderState) (ho hn : Nat) (hs : BuildInv g a s) :
    PPSpec g a s (processPair g a s ho hn) := by
  unfold processPair
  cases g[ho]? with
  | none => exact PPSpec_refl hs
  | some co =>
    cases g[hn]? with
    | none =>
      cases co <;> exact PPSpec_refl hs
    | some cn =>
      cases co with
      | compound ko tago argso =>
        cases cn with
        | compound kn tagn argsn =>
          dsimp only
          have h1 : PPSpec g a s (if (tago == tagn) = true then s
              else addChange s ((firstPathOf g (graphFuel g) a.new hn).getD [] ++
                [PathStep.fnOrCls]) (.modifyValue (.callable tagn))) := by
            split
            · exact PPSpec_refl hs
            · exact addChange_spec hs _ _ (by intro r hr; cases hr)
          have h2 := foldl_PPSpec
            (fun s' an => processChild g a s'
              ((firstPathOf g (graphFuel g) a.new hn).getD []) (PathStep.attr an.1)
              ((argso.find? (fun ao => ao.1 == an.1)).map (fun ao => ao.2))
              (some an.2))
            (fun s2 an hs2 => processChild_spec g a hw hga hfo s2 _ _ _ _ hs2)
            argsn _ h1.1
          have h3 := foldl_PPSpec
            (fun s' ao => if (argsn.find? (fun an => an.1 == ao.1)).isSome then s'
              else addChange s' ((firstPathOf g (graphFuel g) a.new hn).getD [] ++
                [PathStep.attr ao.1]) .deleteValue)
            (fun s2 ao hs2 => by
              dsimp only
              split
              · exact PPSpec_refl hs2
              · exact addChange_spec hs2 _ _ (by intro r hr; cases hr))
            argso _ (PPSpec_trans h1 h2).1
          exact PPSpec_trans (PPSpec_trans h1 h2) h3
        | sequence _ => exact PPSpec_refl hs
        | mapping _ => exact PPSpec_refl hs
      | sequence eo =>
        cases cn with
        | compound _ _ _ => exact PPSpec_refl hs
        | sequence en =>
          dsimp only
          refine foldl_PPSpec _ ?_ _ _ hs
          intro s2 i hs2
          exact processChild_spec g a hw hga hfo s2 _ _ _ _ hs2
        | mapping _ => exact PPSpec_refl hs
      | mapping mo =>
        cases cn with
        | compound _ _ _ => exact PPSpec_refl hs
        | sequence _ => exact PPSpec_refl hs
        | mapping mn =>
          dsimp only
          have h1 : PPSpec g a s (mn.foldl
              (fun s' kn => processChild g a s'
                ((firstPathOf g (graphFuel g) a.new hn).getD []) (.key kn.1)
                ((mo.find? (fun ko => ko.1 == kn.1)).map (fun ko => ko.2))
                (some kn.2)) s) :=
            foldl_PPSpec _
              (fun s2 kn hs2 => processChild_spec g a hw hga hfo s2 _ _ _ _ hs2)
              _ _ hs
          refine PPSpec_trans h1 (foldl_PPSpec _ ?_ _ _ h1.1)
          intro s2 ko hs2
          split
          · exact PPSpec_refl hs2
          · exact addChange_spec hs2 _ _ (by intro r hr; cases hr)

/-- The final builder state satisfies the invariant. -/
theorem buildState_inv (g : Arena) (a : DiffAlignment) (hw : wfArena g = true)
    (hga : GoodAlignment g a) (hfo : fuelOk (graphFuel g) a.old) :
    BuildInv g a (buildState g a) := by
  unfold buildState
  exact (foldl_PPSpec _
    (fun s2 pr hs2 => processPair_spec g a hw hga hfo s2 pr.1 pr.2 hs2)
    a.table initialState (BuildInv_initial g a)).1

/-! ## Claim C2: references never dangle -/

/-- C2: in any diff produced by the builder from a completed alignment,
every reference in a change operation resolves to a valid old-graph path or
to an existing new-shared-values slot, and every reference inside the entry
at slot `i` resolves to a valid old-graph path or to a slot strictly below
`i`. -/
theorem references_resolve (g : Arena) (a : DiffAlignment) (hw : wfArena g = true)
    (hga : GoodAlignment g a) (hfo : fuelOk (graphFuel g) a.old) :
    (∀ pq ∈ (build_diff_from_alignment g a).changes, ∀ r ∈ refsOfOp pq.2,
      (∀ p, r = Reference.oldRef p → ∃ w, resolve g a.old p = some w) ∧
      (∀ j, r = Reference.newSharedRef j →
        j < (build_diff_from_alignment g a).new_shared_values.length)) ∧
    (∀ i dv, (build_diff_from_alignment g a).new_shared_values[i]? = some dv →
      ∀ r ∈ refsOfDV dv,
        (∀ p, r = Reference.oldRef p → ∃ w, resolve g a.old p = some w) ∧
        (∀ j, r = Reference.newSharedRef j → j < i)) := by
  have hinv := buildState_inv g a hw hga hfo
  constructor
  · intro pq hpq r hr
    have hok := hinv.changes_ok pq hpq r hr
    constructor
    · intro p hp
      rw [hp] at hok
      exact hok
    · intro j hj
      rw [hj] at hok
      exact hok
  · intro i dv hdv r hr
    have hok := hinv.entries i dv hdv r hr
    constructor
    · intro p hp
      rw [hp] at hok
      exact hok
    · intro j hj
      rw [hj] at hok
      exact hok

/-- C2 witness at a concrete graph and alignment: the old-graph reference
emitted inside a `SetValue` change resolves in the old graph. -/
theorem references_resolve_witness :
    ∃ w, resolve [.sequence [], .sequence [.node 0], .sequence [.leaf 9, .node 0]]
      (.node 1) [.index 0] = some w :=
  (((references_resolve
      [.sequence [], .sequence [.node 0], .sequence [.leaf 9, .node 0]]
      ⟨.node 1, .node 2, [(1, 2), (0, 0)]⟩
      (by decide)
      (by
        intro pr hpr
        rcases List.mem_cons.mp hpr with h1 | h1
        · rw [h1]; exact ⟨[], rfl⟩
        · rw [List.mem_singleton.mp h1]; exact ⟨[.index 0], rfl⟩)
      (by simp [fuelOk, graphFuel])).1
    ([.index 1], .setValue (.ref (.oldRef [.index 0])))
    (by
      have he : (build_diff_from_alignment
          [.sequence [], .sequence [.node 0], .sequence [.leaf 9, .node 0]]
          ⟨.node 1, .node 2, [(1, 2), (0, 0)]⟩).changes =
          [([.index 0], .modifyValue (.leaf 9)),
           ([.index 1], .setValue (.ref (.oldRef [.index 0])))] := rfl
      rw [he]
      exact List.mem_cons_of_mem _ (List.mem_singleton.mpr rfl))
    (.oldRef [.index 0])
    (by simp [refsOfOp, refsOfDV])).1 [.index 0] rfl)

/-! ## The heuristic alignment is good for the builder -/

theorem GoodAlignment_heuristic (g : Arena) (hw : wfArena g = true)
    (oldRoot newRoot : Value) (hfo : fuelOk (graphFuel g) oldRoot) :
    GoodAlignment g (alignHeuristically g oldRoot newRoot) := by
  have hQbyId : ∀ pr ∈ (alignById g oldRoot newRoot).table,
      ∃ p, resolve g oldRoot p = some (.node pr.1) := by
    unfold alignById
    refine @foldl_preserve _ _
      (fun (a2 : DiffAlignment) => ∀ pr ∈ a2.table,
        ∃ p, resolve g oldRoot p = some (.node pr.1))
      _ _ _ ?_ ?_
    · intro pr hpr; cases hpr
    · intro a2 h _ hQ pr hpr
      by_cases hin : h ∈ reachList g (graphFuel g) oldRoot
      · rw [if_pos hin] at hpr
        rcases tryAlign_table_extends g a2 (.node h) (.node h) with
          hsame | ⟨h1, h2, he1, he2, _, happ⟩
        · rw [hsame] at hpr; exact hQ pr hpr
        · rw [happ] at hpr
          rcases List.mem_append.mp hpr with hpr | hpr
          · exact hQ pr hpr
          · cases he1
            rw [List.mem_singleton.mp hpr]
            exact (reachList_mem_iff hw hfo h).mp hin
      · rw [if_neg hin] at hpr
        exact hQ pr hpr
  have hQpath : ∀ a0 : DiffAlignment, a0.old = oldRoot →
      (∀ pr ∈ a0.table, ∃ p, resolve g oldRoot p = some (.node pr.1)) →
      ∀ pr ∈ (alignByPathPhase g a0).table,
        ∃ p, resolve g oldRoot p = some (.node pr.1) := by
    intro a0 ho hQ0
    unfold alignByPathPhase
    rw [ho]
    refine @foldl_preserve _ _
      (fun (a2 : DiffAlignment) => ∀ pr ∈ a2.table,
        ∃ p, resolve g oldRoot p = some (.node pr.1))
      _ _ _ hQ0 ?_
    intro a2 pv hpv hQ pr hpr
    cases hres : resolve g a2.new pv.1 with
    | none => rw [hres] at hpr; exact hQ pr hpr
    | some nv =>
      rw [hres] at hpr
      rcases tryAlign_table_extends g a2 pv.2 nv with
        hsame | ⟨h1, h2, he1, he2, _, happ⟩
      · rw [hsame] at hpr; exact hQ pr hpr
      · rw [happ] at hpr
        rcases List.mem_append.mp hpr with hpr | hpr
        · exact hQ pr hpr
        · rw [List.mem_singleton.mp hpr]
          have hrz := (pvList_mem_iff hw (graphFuel g) oldRoot hfo pv.1 pv.2).mp
            (show (pv.1, pv.2) ∈ _ from hpv)
          rw [he1] at hrz
          exact ⟨pv.1, hrz⟩
  have hQeq : ∀ a0 : DiffAlignment, a0.old = oldRoot →
      (∀ pr ∈ a0.table, ∃ p, resolve g oldRoot p = some (.node pr.1)) →
      ∀ pr ∈ (alignByEqualityPhase g a0).table,
        ∃ p, resolve g oldRoot p = some (.node pr.1) := by
    intro a0 ho hQ0
    unfold alignByEqualityPhase
    rw [ho]
    refine @foldl_preserve _ _
      (fun (a2 : DiffAlignment) => ∀ pr ∈ a2.table,
        ∃ p, resolve g oldRoot p = some (.node pr.1))
      _ _ _ hQ0 ?_
    intro a2 ho2 hmem hQ pr hpr
    by_cases hals : (newFromOld a2 ho2).isSome = true
    · rw [if_pos hals] at hpr; exact hQ pr hpr
    · rw [if_neg hals] at hpr
      cases hfind : (reachList g (graphFuel g) a2.new).find?
          (fun hn => !(oldFromNew a2 hn).isSome &&
            valueEqF g (graphFuel g) (.node ho2) (.node hn)) with
      | none => rw [hfind] at hpr; exact hQ pr hpr
      | some hn2 =>
        rw [hfind] at hpr
        rcases tryAlign_table_extends g a2 (.node ho2) (.node hn2) with
          hsame | ⟨h1, h2, he1, he2, _, happ⟩
        · rw [hsame] at hpr; exact hQ pr hpr
        · rw [happ] at hpr
          rcases List.mem_append.mp hpr with hpr | hpr
          · exact hQ pr hpr
          · cases he1
            rw [List.mem_singleton.mp hpr]
            exact (reachList_mem_iff hw hfo ho2).mp hmem
  have h1 := alignById_StratInv g oldRoot newRoot
  have h2 := alignByPathPhase_StratInv g (alignById g oldRoot newRoot)
    h1.2.2.2.1 h1.2.2.2.2
  have hQfinal := hQeq (alignByPathPhase g (alignById g oldRoot newRoot))
    (by rw [h2.2.1, h1.2.1]) (hQpath (alignById g oldRoot newRoot) h1.2.1 hQbyId)
  intro pr hpr
  rw [(alignHeuristically_StratInv g oldRoot newRoot).2.1]
  exact hQfinal pr hpr

/-! ## Emission of references to hoisted shared values -/

/-- Whenever the rewriting pass meets a memoizable, unaligned value that is
reachable from more than one position in the new graph, it emits exactly a
`Reference` to that value's slot, and the slot is recorded for the handle in
the resulting state. -/
theorem diffValueF_hoists (g : Arena) (A : DiffAlignment) (hw : wfArena g = true) :
    ∀ (fuel : Nat) (s : BuilderState) (h : Nat),
      oldFromNew A h = none → 1 < numPaths g (graphFuel g) A.new h →
      ∃ i, (diffValueF g A (fuel + 1) s (.node h)).1 = .ref (.newSharedRef i) ∧
        slotOf (diffValueF g A (fuel + 1) s (.node h)).2 h = some i := by
  intro fuel s h hofn hnum
  simp only [diffValueF, hofn]
  cases hslot : slotOf s h with
  | some i => exact ⟨i, rfl, hslot⟩
  | none =>
    have hfresh0 := slotOf_none_keys hslot
    cases hg : g[h]? with
    | none =>
      dsimp only
      rw [if_pos hnum]
      refine ⟨s.newSharedValues.length, rfl, ?_⟩
      unfold slotOf
      rw [find?_append_none
        (List.find?_eq_none.mpr (fun pr hpr => by simpa using hfresh0 pr hpr)) _]
      simp [List.find?]
    | some c =>
      have hbnd := (wfArena_spec hw hg).1
      cases c with
      | compound k tag args =>
        dsimp only
        rcases hcp : convPairs (diffValueF g A fuel) s args with ⟨dargs, s1⟩
        dsimp only
        rw [if_pos hnum]
        have hfresh : ∀ pr ∈ s1.slotById, pr.1 ≠ h := by
          intro pr hpr
          have := convPairs_slot_keys
            (fun s2 v2 => diffValueF_slot_keys g A hw fuel s2 v2) args s
            pr (by rw [hcp]; exact hpr)
          rcases this with hin | ⟨hb, hm, hle⟩
          · exact hfresh0 pr hin
          · have := hbnd (Value.node hb) hm
            simp only [valueBound, decide_eq_true_eq] at this
            omega
        refine ⟨s1.newSharedValues.length, rfl, ?_⟩
        unfold slotOf
        rw [find?_append_none
          (List.find?_eq_none.mpr (fun pr hpr => by simpa using hfresh pr hpr)) _]
        simp [List.find?]
      | sequence elts =>
        dsimp only
        rcases hcp : convVals (diffValueF g A fuel) s elts with ⟨delts, s1⟩
        dsimp only
        rw [if_pos hnum]
        have hfresh : ∀ pr ∈ s1.slotById, pr.1 ≠ h := by
          intro pr hpr
          have := convVals_slot_keys
            (fun s2 v2 => diffValueF_slot_keys g A hw fuel s2 v2) elts s
            pr (by rw [hcp]; exact hpr)
          rcases this with hin | ⟨hb, hm, hle⟩
          · exact hfresh0 pr hin
          · have := hbnd (Value.node hb) hm
            simp only [valueBound, decide_eq_true_eq] at this
            omega
        refine ⟨s1.newSharedValues.length, rfl, ?_⟩
        unfold slotOf
        rw [find?_append_none
          (List.find?_eq_none.mpr (fun pr hpr => by simpa using hfresh pr hpr)) _]
        simp [List.find?]
      | mapping entries =>
        dsimp only
        rcases hcp : convPairs (diffValueF g A fuel) s entries with ⟨dents, s1⟩
        dsimp only
        rw [if_pos hnum]
        have hfresh : ∀ pr ∈ s1.slotById, pr.1 ≠ h := by
          intro pr hpr
          have := convPairs_slot_keys
            (fun s2 v2 => diffValueF_slot_keys g A hw fuel s2 v2) entries s
            pr (by rw [hcp]; exact hpr)
          rcases this with hin | ⟨hb, hm, hle⟩
          · exact hfresh0 pr hin
          · have := hbnd (Value.node hb) hm
            simp only [valueBound, decide_eq_true_eq] at this
            omega
        refine ⟨s1.newSharedValues.length, rfl, ?_⟩
        unfold slotOf
        rw [find?_append_none
          (List.find?_eq_none.mpr (fun pr hpr => by simpa using hfresh pr hpr)) _]
        simp [List.find?]

/-! ## Claim C1: new shared values are hoisted once, by identity -/

/-- C1: when the diff is built over a heuristic alignment, a memoizable new
value reachable from several positions and not aligned to the old graph is
hoisted into `new_shared_values` exactly once (the slot table is a
bijection between hoisted handles and slot indices), every position that
reaches it during emission receives a `Reference` to that slot, and two
distinct values that are merely equal by value are never merged into one
slot. -/
theorem new_shared_values_unique_and_referenced (g : Arena) (oldRoot newRoot : Value)
    (hw : wfArena g = true) (hfo : fuelOk (graphFuel g) oldRoot) :
    (∀ pr ∈ (buildState g (alignHeuristically g oldRoot newRoot)).slotById,
      ∀ pr' ∈ (buildState g (alignHeuristically g oldRoot newRoot)).slotById,
        (pr.1 = pr'.1 → pr.2 = pr'.2) ∧ (pr.2 = pr'.2 → pr.1 = pr'.1)) ∧
    (∀ (fuel : Nat) (s : BuilderState) (h : Nat),
      oldFromNew (alignHeuristically g oldRoot newRoot) h = none →
      1 < numPaths g (graphFuel g) (alignHeuristically g oldRoot newRoot).new h →
      ∃ i, (diffValueF g (alignHeuristically g oldRoot newRoot)
              (fuel + 1) s (.node h)).1 = .ref (.newSharedRef i) ∧
        slotOf (diffValueF g (alignHeuristically g oldRoot newRoot)
          (fuel + 1) s (.node h)).2 h = some i) ∧
    (∀ h1 h2 i1 i2,
      (h1, i1) ∈ (buildState g (alignHeuristically g oldRoot newRoot)).slotById →
      (h2, i2) ∈ (buildState g (alignHeuristically g oldRoot newRoot)).slotById →
      h1 ≠ h2 → valueEqF g (graphFuel g) (.node h1) (.node h2) = true →
      i1 ≠ i2) := by
  have hga := GoodAlignment_heuristic g hw oldRoot newRoot hfo
  have hfoA : fuelOk (graphFuel g) (alignHeuristically g oldRoot newRoot).old := by
    rw [(alignHeuristically_StratInv g oldRoot newRoot).2.1]
    exact hfo
  have hinv := buildState_inv g (alignHeuristically g oldRoot newRoot) hw hga hfoA
  refine ⟨?_, ?_, ?_⟩
  · intro pr hpr pr' hpr'
    exact ⟨hinv.slot_fun pr hpr pr' hpr', hinv.slot_inj pr hpr pr' hpr'⟩
  · exact diffValueF_hoists g (alignHeuristically g oldRoot newRoot) hw
  · intro h1 h2 i1 i2 hm1 hm2 hne _ hieq
    exact hne (hinv.slot_inj (h1, i1) hm1 (h2, i2) hm2 (by rw [hieq]))

/-- C1 witness at a concrete graph: a handle reachable twice and unaligned
is emitted as a reference to the slot recorded for it. -/
theorem new_shared_values_unique_and_referenced_witness :
    ∃ i, (diffValueF [.sequence [], .sequence [.node 0, .node 0]]
        (alignHeuristically [.sequence [], .sequence [.node 0, .node 0]]
          (.leaf 0) (.node 1)) 2 initialState (.node 0)).1
        = .ref (.newSharedRef i) ∧
      slotOf (diffValueF [.sequence [], .sequence [.node 0, .node 0]]
        (alignHeuristically [.sequence [], .sequence [.node 0, .node 0]]
          (.leaf 0) (.node 1)) 2 initialState (.node 0)).2 0 = some i :=
  (new_shared_values_unique_and_referenced
      [.sequence [], .sequence [.node 0, .node 0]] (.leaf 0) (.node 1)
      (by decide) trivial).2.1 1 initialState 0 (by decide) (by decide)

/-! ## Deep copies: shifting a graph into fresh handles -/

/-- Renaming every handle of a value by an offset: the value of a deep copy
placed in fresh arena slots. -/
def shiftValue (N : Nat) : Value → Value
  | .leaf x => .leaf x
  | .node h => .node (h + N)

/-- Renaming every handle of a node content by an offset. -/
def shiftContent (N : Nat) : NodeContent → NodeContent
  | .compound k t args => .compound k t (args.map (fun a => (a.1, shiftValue N a.2)))
  | .sequence elts => .sequence (elts.map (shiftValue N))
  | .mapping entries => .mapping (entries.map (fun a => (a.1, shiftValue N a.2)))

/-- The arena extended with a structurally identical, value-equal deep copy
of every node, sharing no handle with the original. -/
def copyArena (g : Arena) : Arena := g ++ g.map (shiftContent g.length)

theorem copyArena_get_low {g : Arena} {h : Nat} (hh : h < g.length) :
    (copyArena g)[h]? = g[h]? := by
  unfold copyArena
  rw [List.getElem?_append, if_pos hh]

theorem copyArena_get_high (g : Arena) (h : Nat) :
    (copyArena g)[h + g.length]? = (g[h]?).map (shiftContent g.length) := by
  unfold copyArena
  rw [List.getElem?_append, if_neg (by omega)]
  have he : h + g.length - g.length = h := by omega
  rw [he, List.getElem?_map]

theorem shiftContent_slotKeys (N : Nat) (l : List (String × Value)) :
    slotKeys (l.map (fun a => (a.1, shiftValue N a.2))) = slotKeys l := by
  unfold slotKeys
  rw [List.map_map]
  rfl

theorem shiftContent_contentVals (N : Nat) (c : NodeContent) :
    contentVals (shiftContent N c) = (contentVals c).map (shiftValue N) := by
  cases c with
  | compound k t args =>
    simp only [shiftContent, contentVals, List.map_map]
    rfl
  | sequence elts => rfl
  | mapping entries =>
    simp only [shiftContent, contentVals, List.map_map]
    rfl

theorem shiftContent_keysNodup (N : Nat) (c : NodeContent) :
    contentKeysNodup (shiftContent N c) = contentKeysNodup c := by
  cases c with
  | compound k t args =>
    simp only [shiftContent, contentKeysNodup, shiftContent_slotKeys]
  | sequence elts => rfl
  | mapping entries =>
    simp only [shiftContent, contentKeysNodup, shiftContent_slotKeys]

theorem seqSteps_map_shift (N : Nat) :
    ∀ (elts : List Value) (i : Nat),
      seqSteps i (elts.map (shiftValue N)) =
        (seqSteps i elts).map (fun sv => (sv.1, shiftValue N sv.2)) := by
  intro elts
  induction elts with
  | nil => intro i; rfl
  | cons e rest ih =>
    intro i
    simp only [List.map_cons, seqSteps, ih]

theorem shiftContent_childSteps (N : Nat) (c : NodeContent) :
    childSteps (shiftContent N c) =
      (childSteps c).map (fun sv => (sv.1, shiftValue N sv.2)) := by
  cases c with
  | compound k t args =>
    simp only [shiftContent, childSteps, List.map_map]
    rfl
  | sequence elts =>
    simp only [shiftContent, childSteps]
    exact seqSteps_map_shift N elts 0
  | mapping entries =>
    simp only [shiftContent, childSteps, List.map_map]
    rfl

theorem copyArena_wf {g : Arena} (hw : wfArena g = true) :
    wfArena (copyArena g) = true := by
  rw [wfArena, List.all_eq_true]
  intro h hh
  rw [List.mem_range] at hh
  have hlen : (copyArena g).length = g.length + g.length := by
    simp [copyArena]
  by_cases hlow : h < g.length
  · rw [copyArena_get_low hlow]
    cases hg : g[h]? with
    | none => rfl
    | some c =>
      have := wfArena_spec hw hg
      rw [Bool.and_eq_true, List.all_eq_true]
      exact ⟨fun v hv => this.1 v hv, this.2⟩
  · have hh2 : h - g.length < g.length := by omega
    have he : h = (h - g.length) + g.length := by omega
    rw [he, copyArena_get_high g (h - g.length)]
    cases hg : g[h - g.length]? with
    | none => rfl
    | some c =>
      have hspec := wfArena_spec hw hg
      simp only [Option.map_some']
      rw [Bool.and_eq_true, List.all_eq_true]
      constructor
      · intro v hv
        rw [shiftContent_contentVals] at hv
        rcases List.mem_map.mp hv with ⟨v0, hv0, hveq⟩
        have hb := hspec.1 v0 hv0
        cases v0 with
        | leaf x => rw [← hveq]; rfl
        | node c0 =>
          rw [← hveq]
          simp only [shiftValue, valueBound, decide_eq_true_eq] at hb ⊢
          omega
      · rw [shiftContent_keysNodup]
        exact hspec.2

theorem stepValue_bound {g : Arena} (hw : wfArena g = true) {N : Nat}
    {v v2 : Value} (hv : valueBound N v = true) {s : PathStep}
    (hst : stepValue g v s = some v2) : valueBound N v2 = true := by
  cases v with
  | leaf x => simp [stepValue] at hst
  | node h =>
    cases hg : g[h]? with
    | none => simp [stepValue, hg] at hst
    | some c =>
      have hmem := stepValue_mem_childSteps hg hst
      have hb := (wfArena_spec hw hg).1 v2 (childSteps_val_mem hmem)
      simp only [valueBound, decide_eq_true_eq] at hv
      cases v2 with
      | leaf _ => rfl
      | node h2 =>
        simp only [valueBound, decide_eq_true_eq] at hb ⊢
        omega

theorem resolve_bound {g : Arena} (hw : wfArena g = true) {N : Nat} :
    ∀ (p : Path) (v : Value), valueBound N v = true →
      ∀ w, resolve g v p = some w → valueBound N w = true := by
  intro p
  induction p with
  | nil =>
    intro v hv w hr
    simp only [resolve, Option.some.injEq] at hr
    rw [← hr]
    exact hv
  | cons s p ih =>
    intro v hv w hr
    simp only [resolve] at hr
    cases hst : stepValue g v s with
    | none => rw [hst] at hr; cases hr
    | some v2 =>
      rw [hst] at hr
      simp only [Option.some_bind] at hr
      exact ih v2 (stepValue_bound hw hv hst) w hr

theorem find?_map_shift (N : Nat) (l : List (String × Value)) (n : String) :
    (l.map (fun a => (a.1, shiftValue N a.2))).find? (fun a => a.1 == n) =
      (l.find? (fun a => a.1 == n)).map (fun a => (a.1, shiftValue N a.2)) := by
  induction l with
  | nil => rfl
  | cons a rest ih =>
    cases hb : (a.1 == n) with
    | true =>
      have h1 : (List.map (fun a => (a.1, shiftValue N a.2)) (a :: rest)).find?
          (fun a => a.1 == n) = some (a.1, shiftValue N a.2) := by
        rw [List.map_cons]
        exact List.find?_cons_of_pos _ (by simpa using hb)
      have h2 : (a :: rest).find? (fun a => a.1 == n) = some a :=
        List.find?_cons_of_pos _ hb
      rw [h1, h2]
      rfl
    | false =>
      have h1 : (List.map (fun a => (a.1, shiftValue N a.2)) (a :: rest)).find?
          (fun a => a.1 == n) =
          (List.map (fun a => (a.1, shiftValue N a.2)) rest).find?
            (fun a => a.1 == n) := by
        rw [List.map_cons]
        exact List.find?_cons_of_neg _ (by simp [hb])
      have h2 : (a :: rest).find? (fun a => a.1 == n) =
          rest.find? (fun a => a.1 == n) :=
        List.find?_cons_of_neg _ (by simp [hb])
      rw [h1, h2, ih]

theorem stepValue_copy_low {g : Arena} {v : Value}
    (hv : valueBound g.length v = true) (s : PathStep) :
    stepValue (copyArena g) v s = stepValue g v s := by
  cases v with
  | leaf x => rfl
  | node h =>
    simp only [valueBound, decide_eq_true_eq] at hv
    simp only [stepValue, copyArena_get_low hv]

theorem stepValue_copy_shift {g : Arena} {v : Value}
    (hv : valueBound g.length v = true) (s : PathStep) :
    stepValue (copyArena g) (shiftValue g.length v) s =
      (stepValue g v s).map (shiftValue g.length) := by
  cases v with
  | leaf x => rfl
  | node h =>
    simp only [shiftValue, stepValue, copyArena_get_high g h]
    cases hg : g[h]? with
    | none => rfl
    | some c =>
      simp only [Option.map_some']
      cases c with
      | compound k t args =>
        cases s with
        | attr n =>
          simp only [shiftContent, find?_map_shift]
          cases args.find? (fun a => a.1 == n) with
          | none => rfl
          | some a => rfl
        | index _ => rfl
        | key _ => rfl
        | fnOrCls => rfl
      | sequence elts =>
        cases s with
        | attr _ => rfl
        | index i =>
          simp only [shiftContent, List.getElem?_map]
        | key _ => rfl
        | fnOrCls => rfl
      | mapping entries =>
        cases s with
        | attr _ => rfl
        | index _ => rfl
        | key n =>
          simp only [shiftContent, find?_map_shift]
          cases entries.find? (fun a => a.1 == n) with
          | none => rfl
          | some a => rfl
        | fnOrCls => rfl

theorem resolve_copy_low {g : Arena} (hw : wfArena g = true) :
    ∀ (p : Path) (v : Value), valueBound g.length v = true →
      resolve (copyArena g) v p = resolve g v p := by
  intro p
  induction p with
  | nil => intro v _; rfl
  | cons s p ih =>
    intro v hv
    simp only [resolve, stepValue_copy_low hv]
    cases hst : stepValue g v s with
    | none => rfl
    | some v2 =>
      simp only [Option.some_bind]
      exact ih v2 (stepValue_bound hw hv hst)

theorem resolve_copy_shift {g : Arena} (hw : wfArena g = true) :
    ∀ (p : Path) (v : Value), valueBound g.length v = true →
      resolve (copyArena g) (shiftValue g.length v) p =
        (resolve g v p).map (shiftValue g.length) := by
  intro p
  induction p with
  | nil => intro v _; rfl
  | cons s p ih =>
    intro v hv
    simp only [resolve, stepValue_copy_shift hv]
    cases hst : stepValue g v s with
    | none => rfl
    | some v2 =>
      simp only [Option.map_some', Option.some_bind]
      exact ih v2 (stepValue_bound hw hv hst)

theorem pvList_copy_low {g : Arena} (hw : wfArena g = true) :
    ∀ (fuel : Nat) (v : Value), valueBound g.length v = true →
      pvList (copyArena g) fuel v = pvList g fuel v := by
  intro fuel
  induction fuel with
  | zero => intro v _; rfl
  | succ fuel ih =>
    intro v hv
    cases v with
    | leaf x => rfl
    | node h =>
      have hlow : h < g.length := by
        simpa [valueBound] using hv
      simp only [pvList, copyArena_get_low hlow]
      cases hg : g[h]? with
      | none => rfl
      | some c =>
        congr 1
        apply List.flatMap_congr
        intro sv hsv
        congr 1
        refine ih sv.2 ?_
        have := (wfArena_spec hw hg).1 sv.2 (childSteps_val_mem
          (show (sv.1, sv.2) ∈ childSteps c from hsv))
        cases hv2 : sv.2 with
        | leaf _ => rfl
        | node h2 =>
          rw [hv2] at this
          simp only [valueBound, decide_eq_true_eq] at this ⊢
          omega

theorem pvList_copy_shift {g : Arena} (hw : wfArena g = true) :
    ∀ (fuel : Nat) (v : Value), valueBound g.length v = true →
      pvList (copyArena g) fuel (shiftValue g.length v) =
        (pvList g fuel v).map (fun pv => (pv.1, shiftValue g.length pv.2)) := by
  intro fuel
  induction fuel with
  | zero => intro v _; rfl
  | succ fuel ih =>
    intro v hv
    cases v with
    | leaf x => rfl
    | node h =>
      have hlow : h < g.length := by
        simpa [valueBound] using hv
      simp only [shiftValue, pvList, copyArena_get_high g h]
      cases hg : g[h]? with
      | none => rfl
      | some c =>
        simp only [Option.map_some', List.map_cons]
        congr 1
        rw [shiftContent_childSteps, List.flatMap_map, List.map_flatMap]
        apply List.flatMap_congr
        intro sv hsv
        have hbv : valueBound g.length sv.2 = true := by
          have := (wfArena_spec hw hg).1 sv.2 (childSteps_val_mem
            (show (sv.1, sv.2) ∈ childSteps c from hsv))
          cases hv2 : sv.2 with
          | leaf _ => rfl
          | node h2 =>
            rw [hv2] at this
            simp only [valueBound, decide_eq_true_eq] at this ⊢
            omega
        simp only
        rw [ih sv.2 hbv, List.map_map, List.map_map]
        rfl

theorem foldl_fixed {α β : Type} (f : β → α → β) (l : List α)
    (hf : ∀ (b : β) (x : α), x ∈ l → f b x = b) : ∀ b, l.foldl f b = b := by
  induction l with
  | nil => intro b; rfl
  | cons x rest ih =>
    intro b
    rw [List.foldl_cons, hf b x (List.mem_cons_self _ _)]
    exact ih (fun b2 y hy => hf b2 y (List.mem_cons_of_mem _ hy)) b

theorem pvList_bound {g : Arena} (hw : wfArena g = true) {N : Nat} :
    ∀ (fuel : Nat) (v : Value), valueBound N v = true →
      ∀ pv ∈ pvList g fuel v, valueBound N pv.2 = true := by
  intro fuel
  induction fuel with
  | zero =>
    intro v hville pv hpv
    rcases List.mem_singleton.mp hpv with rfl
    exact hville
  | succ fuel ih =>
    intro v hvb pv hpv
    cases v with
    | leaf x =>
      rcases List.mem_singleton.mp hpv with rfl
      rfl
    | node h =>
      rcases List.mem_cons.mp hpv with hpv | hpv
      · rw [hpv]; exact hvb
      · cases hg : g[h]? with
        | none => rw [hg] at hpv; cases hpv
        | some c =>
          rw [hg] at hpv
          rcases List.mem_flatMap.mp hpv with ⟨sv, hsv, hmem⟩
          rcases List.mem_map.mp hmem with ⟨pv2, hpv2, heq⟩
          have hcb := (wfArena_spec hw hg).1 sv.2 (childSteps_val_mem
            (show (sv.1, sv.2) ∈ childSteps c from hsv))
          have hvb2 : valueBound N sv.2 = true := by
            cases hsvv : sv.2 with
            | leaf _ => rfl
            | node h2 =>
              rw [hsvv] at hcb
              simp only [valueBound, decide_eq_true_eq] at hcb hvb ⊢
              omega
          have := ih sv.2 hvb2 pv2 hpv2
          rw [← heq]
          exact this

theorem reachList_copy_low {g : Arena} (hw : wfArena g = true) (fuel : Nat)
    {v : Value} (hv : valueBound g.length v = true) :
    reachList (copyArena g) fuel v = reachList g fuel v := by
  unfold reachList
  rw [pvList_copy_low hw fuel v hv]

theorem reachList_bound {g : Arena} (hw : wfArena g = true) {N : Nat}
    (fuel : Nat) {v : Value} (hv : valueBound N v = true) :
    ∀ h ∈ reachList g fuel v, h < N := by
  intro h hm
  rcases List.mem_filterMap.mp hm with ⟨pv, hpv, hmatch⟩
  have := pvList_bound hw fuel v hv pv hpv
  cases hpv2 : pv.2 with
  | leaf x => rw [hpv2] at hmatch; cases hmatch
  | node h2 =>
    rw [hpv2] at hmatch
    simp only [Option.some.injEq] at hmatch
    rw [hpv2] at this
    simp only [valueBound, decide_eq_true_eq] at this
    omega

theorem alignById_copy (g : Arena) (hw : wfArena g = true) (root : Value)
    (hv : valueBound g.length root = true) :
    alignById (copyArena g) root (shiftValue g.length root) =
      ⟨root, shiftValue g.length root, []⟩ := by
  unfold alignById
  apply foldl_fixed
  intro a2 h hm
  rw [if_neg]
  intro hmem
  rw [reachList_copy_low hw _ hv] at hmem
  have hlt := reachList_bound hw (graphFuel (copyArena g)) hv h hmem
  -- h also comes from the shifted root's reach list: h = c + g.length
  have hge : g.length ≤ h := by
    unfold reachList at hm
    rw [pvList_copy_shift hw _ root hv] at hm
    rcases List.mem_filterMap.mp hm with ⟨pv, hpv, hmatch⟩
    rcases List.mem_map.mp hpv with ⟨pv0, _, heq⟩
    rw [← heq] at hmatch
    cases hpv0 : pv0.2 with
    | leaf x =>
      rw [hpv0] at hmatch
      cases hmatch
    | node c0 =>
      rw [hpv0] at hmatch
      simp only [shiftValue, Option.some.injEq] at hmatch
      omega
  omega

theorem typeTagOf_copy (g : Arena) {h0 : Nat} (hlow : h0 < g.length) :
    typeTagOf (copyArena g) (.node (h0 + g.length)) =
      typeTagOf (copyArena g) (.node h0) := by
  simp only [typeTagOf, copyArena_get_low hlow, copyArena_get_high]
  cases g[h0]? with
  | none => rfl
  | some c =>
    cases c with
    | compound k t args => cases k <;> rfl
    | sequence elts => rfl
    | mapping entries => rfl

theorem seqLenMismatch_copy (g : Arena) {h0 : Nat} (hlow : h0 < g.length) :
    seqLenMismatch (copyArena g) (.node h0) (.node (h0 + g.length)) = false := by
  simp only [seqLenMismatch, copyArena_get_low hlow, copyArena_get_high]
  cases g[h0]? with
  | none => rfl
  | some c =>
    cases c with
    | compound k t args => rfl
    | sequence elts => simp [shiftContent]
    | mapping entries => rfl

theorem foldl_fixed_of_self {α β : Type} (f : β → α → β) (l : List α) (b : β)
    (hf : ∀ x ∈ l, f b x = b) : l.foldl f b = b := by
  induction l with
  | nil => rfl
  | cons x rest ih =>
    rw [List.foldl_cons, hf x (List.mem_cons_self _ _)]
    exact ih (fun y hy => hf y (List.mem_cons_of_mem _ hy))

theorem eqPhase_skip (g2 : Arena) (a0 : DiffAlignment)
    (hall : ∀ ho ∈ reachList g2 (graphFuel g2) a0.old,
      (newFromOld a0 ho).isSome = true) :
    alignByEqualityPhase g2 a0 = a0 := by
  unfold alignByEqualityPhase
  apply foldl_fixed_of_self
  intro ho hm
  rw [if_pos]
  exact hall ho hm

/-- The path phase of the heuristic alignment, run between a graph and its
deep copy, aligns exactly the visited nodes with their shifted copies. -/
theorem path_fold_copy (g : Arena) (hw : wfArena g = true) (root : Value)
    (hv : valueBound g.length root = true) :
    ∀ (l : List (Path × Value)) (a2 : DiffAlignment) (S : Nat → Prop),
      a2.old = root → a2.new = shiftValue g.length root →
      (∀ pv ∈ l, resolve g root pv.1 = some pv.2) →
      (∀ x, x ∈ a2.table ↔ ∃ h, x = (h, h + g.length) ∧ S h) →
      (l.foldl (fun a pv =>
          match resolve (copyArena g) a.new pv.1 with
          | some nv => tryAlign (copyArena g) a pv.2 nv
          | none => a) a2).old = root ∧
      (l.foldl (fun a pv =>
          match resolve (copyArena g) a.new pv.1 with
          | some nv => tryAlign (copyArena g) a pv.2 nv
          | none => a) a2).new = shiftValue g.length root ∧
      (∀ x, x ∈ (l.foldl (fun a pv =>
          match resolve (copyArena g) a.new pv.1 with
          | some nv => tryAlign (copyArena g) a pv.2 nv
          | none => a) a2).table ↔
        ∃ h, x = (h, h + g.length) ∧
          (S h ∨ Value.node h ∈ l.map (fun pv => pv.2))) := by
  intro l
  induction l with
  | nil =>
    intro a2 S ho hn _ hchar
    refine ⟨ho, hn, ?_⟩
    intro x
    rw [List.foldl_nil, hchar x]
    simp
  | cons pv rest ih =>
    rcases pv with ⟨p0, v0⟩
    intro a2 S ho hn hres hchar
    rw [List.foldl_cons]
    have hres0 : resolve g root p0 = some v0 :=
      hres (p0, v0) (List.mem_cons_self _ _)
    have hres1 : resolve (copyArena g) a2.new p0 =
        some (shiftValue g.length v0) := by
      rw [hn, resolve_copy_shift hw p0 root hv, hres0]
      rfl
    have hresrest : ∀ pv2 ∈ rest, resolve g root pv2.1 = some pv2.2 :=
      fun pv2 hm => hres pv2 (List.mem_cons_of_mem _ hm)
    simp only [hres1]
    cases v0 with
    | leaf x0 =>
      have hval : validateAlign (copyArena g) a2 (.leaf x0)
          (shiftValue g.length (.leaf x0)) = some .nonMemoizableOld := by
        simp [validateAlign, isMemoizable, shiftValue]
      rw [tryAlign_of_validate_some hval]
      rcases ih a2 S ho hn hresrest hchar with ⟨ho2, hn2, hchar2⟩
      refine ⟨ho2, hn2, ?_⟩
      intro x
      rw [hchar2 x, List.map_cons]
      constructor
      · rintro ⟨h, hx, hs | hm⟩
        · exact ⟨h, hx, Or.inl hs⟩
        · exact ⟨h, hx, Or.inr (List.mem_cons_of_mem _ hm)⟩
      · rintro ⟨h, hx, hs | hm⟩
        · exact ⟨h, hx, Or.inl hs⟩
        · rcases List.mem_cons.mp hm with he | hm2
          · cases he
          · exact ⟨h, hx, Or.inr hm2⟩
    | node h0 =>
      have hb0 : h0 < g.length := by
        have := resolve_bound hw p0 root hv _ hres0
        simpa [valueBound] using this
      have htyeq : typeTagOf (copyArena g) (.node h0) =
          typeTagOf (copyArena g) (.node (h0 + g.length)) :=
        (typeTagOf_copy g hb0).symm
      by_cases hST : (h0, h0 + g.length) ∈ a2.table
      · have hold : isOldValueAligned a2 (.node h0) = true :=
          isOldValueAligned_iff.mpr ⟨(h0, h0 + g.length), hST, rfl⟩
        have hval : validateAlign (copyArena g) a2 (.node h0)
            (shiftValue g.length (.node h0)) = some .oldAlreadyAligned := by
          simp [validateAlign, isMemoizable, shiftValue, htyeq, hold]
        rw [tryAlign_of_validate_some hval]
        have hS0 : S h0 := by
          rcases (hchar (h0, h0 + g.length)).mp hST with ⟨h, hx, hs⟩
          have : h0 = h := congrArg Prod.fst hx
          rw [this]
          exact hs
        rcases ih a2 S ho hn hresrest hchar with ⟨ho2, hn2, hchar2⟩
        refine ⟨ho2, hn2, ?_⟩
        intro x
        rw [hchar2 x, List.map_cons]
        constructor
        · rintro ⟨h, hx, hs | hm⟩
          · exact ⟨h, hx, Or.inl hs⟩
          · exact ⟨h, hx, Or.inr (List.mem_cons_of_mem _ hm)⟩
        · rintro ⟨h, hx, hs | hm⟩
          · exact ⟨h, hx, Or.inl hs⟩
          · rcases List.mem_cons.mp hm with he | hm2
            · have hh : h = h0 := by
                cases he
                rfl
              exact ⟨h, hx, Or.inl (by rw [hh]; exact hS0)⟩
            · exact ⟨h, hx, Or.inr hm2⟩
      · have holdf : isOldValueAligned a2 (.node h0) = false := by
          cases hb : isOldValueAligned a2 (.node h0) with
          | false => rfl
          | true =>
            exfalso
            rcases isOldValueAligned_iff.mp hb with ⟨pr, hpr, hpr1⟩
            rcases (hchar pr).mp hpr with ⟨h, hx, _⟩
            apply hST
            have hh : h = h0 := by
              rw [hx] at hpr1
              exact hpr1
            rw [hx, hh] at hpr
            exact hpr
        have hnewf : isNewValueAligned a2 (.node (h0 + g.length)) = false := by
          cases hb : isNewValueAligned a2 (.node (h0 + g.length)) with
          | false => rfl
          | true =>
            exfalso
            rcases isNewValueAligned_iff.mp hb with ⟨pr, hpr, hpr2⟩
            rcases (hchar pr).mp hpr with ⟨h, hx, _⟩
            apply hST
            have hh : h = h0 := by
              rw [hx] at hpr2
              simp only at hpr2
              omega
            rw [hx, hh] at hpr
            exact hpr
        have hval : validateAlign (copyArena g) a2 (.node h0)
            (.node (h0 + g.length)) = none :=
          (validateAlign_eq_none_iff _ _ _ _).mpr
            ⟨rfl, rfl, htyeq, holdf, hnewf, seqLenMismatch_copy g hb0⟩
        have hstep : tryAlign (copyArena g) a2 (.node h0)
            (shiftValue g.length (.node h0)) =
            { a2 with table := a2.table ++ [(h0, h0 + g.length)] } := by
          show tryAlign (copyArena g) a2 (.node h0) (.node (h0 + g.length)) = _
          exact tryAlign_of_validate_none hval
        rw [hstep]
        have hchar' : ∀ x, x ∈ ({ a2 with
            table := a2.table ++ [(h0, h0 + g.length)] } : DiffAlignment).table ↔
            ∃ h, x = (h, h + g.length) ∧ (S h ∨ h = h0) := by
          intro x
          simp only [List.mem_append, List.mem_singleton]
          constructor
          · rintro (hm | hm)
            · rcases (hchar x).mp hm with ⟨h, hx, hs⟩
              exact ⟨h, hx, Or.inl hs⟩
            · exact ⟨h0, hm, Or.inr rfl⟩
          · rintro ⟨h, hx, hs | he⟩
            · exact Or.inl ((hchar x).mpr ⟨h, hx, hs⟩)
            · rw [he] at hx
              exact Or.inr hx
        rcases ih { a2 with table := a2.table ++ [(h0, h0 + g.length)] }
          (fun h => S h ∨ h = h0) ho hn hresrest hchar' with ⟨ho2, hn2, hchar2⟩
        refine ⟨ho2, hn2, ?_⟩
        intro x
        rw [hchar2 x, List.map_cons]
        constructor
        · rintro ⟨h, hx, (hs | he) | hm⟩
          · exact ⟨h, hx, Or.inl hs⟩
          · exact ⟨h, hx, Or.inr (by rw [he]; exact List.mem_cons_self _ _)⟩
          · exact ⟨h, hx, Or.inr (List.mem_cons_of_mem _ hm)⟩
        · rintro ⟨h, hx, hs | hm⟩
          · exact ⟨h, hx, Or.inl (Or.inl hs)⟩
          · rcases List.mem_cons.mp hm with he | hm2
            · have hh : h = h0 := by
                cases he
                rfl
              exact ⟨h, hx, Or.inl (Or.inr hh)⟩
            · exact ⟨h, hx, Or.inr hm2⟩

/-- The heuristic alignment between a graph and its deep copy aligns
exactly every reachable memoizable node with its copy. -/
theorem alignHeuristically_copy_char (g : Arena) (hw : wfArena g = true)
    (root : Value) (hv : valueBound g.length root = true) :
    (alignHeuristically (copyArena g) root (shiftValue g.length root)).old = root ∧
    (∀ x, x ∈ (alignHeuristically (copyArena g) root
        (shiftValue g.length root)).table ↔
      ∃ h, x = (h, h + g.length) ∧ ∃ p, resolve g root p = some (.node h)) := by
  have hfo2 : fuelOk (graphFuel (copyArena g)) root := by
    cases root with
    | leaf x => trivial
    | node hr =>
      show hr < graphFuel (copyArena g)
      have h1 : hr < g.length := by simpa [valueBound] using hv
      have h2 : g.length ≤ graphFuel (copyArena g) := by
        simp [graphFuel, copyArena]
      omega
  have hres0 : ∀ pv ∈ pvList g (graphFuel (copyArena g)) root,
      resolve g root pv.1 = some pv.2 := by
    intro pv hpv
    exact (pvList_mem_iff hw _ root hfo2 pv.1 pv.2).mp
      (show (pv.1, pv.2) ∈ _ from hpv)
  have hchar0 : ∀ x, x ∈ (⟨root, shiftValue g.length root, []⟩ :
      DiffAlignment).table ↔
      ∃ h, x = (h, h + g.length) ∧ (fun (_ : Nat) => False) h := by
    intro x
    constructor
    · intro hx
      cases hx
    · rintro ⟨h, _, hf⟩
      cases hf
  have hP := path_fold_copy g hw root hv (pvList g (graphFuel (copyArena g)) root)
    ⟨root, shiftValue g.length root, []⟩ (fun _ => False) rfl rfl hres0 hchar0
  have hpath_eq : alignByPathPhase (copyArena g)
      ⟨root, shiftValue g.length root, []⟩ =
      (pvList g (graphFuel (copyArena g)) root).foldl
        (fun a pv =>
          match resolve (copyArena g) a.new pv.1 with
          | some nv => tryAlign (copyArena g) a pv.2 nv
          | none => a)
        ⟨root, shiftValue g.length root, []⟩ := by
    unfold alignByPathPhase
    dsimp only
    rw [pvList_copy_low hw _ root hv]
  have hmemof : ∀ h : Nat, (∃ p, resolve g root p = some (.node h)) ↔
      Value.node h ∈ (pvList g (graphFuel (copyArena g)) root).map
        (fun pv => pv.2) := by
    intro h
    constructor
    · rintro ⟨p, hp⟩
      exact List.mem_map.mpr ⟨(p, .node h),
        (pvList_mem_iff hw _ root hfo2 p (.node h)).mpr hp, rfl⟩
    · intro hm
      rcases List.mem_map.mp hm with ⟨pv, hpv, heq⟩
      refine ⟨pv.1, ?_⟩
      have := (pvList_mem_iff hw _ root hfo2 pv.1 pv.2).mp
        (show (pv.1, pv.2) ∈ _ from hpv)
      rw [heq] at this
      exact this
  have hall : ∀ ho ∈ reachList (copyArena g) (graphFuel (copyArena g))
      ((pvList g (graphFuel (copyArena g)) root).foldl
        (fun (a : DiffAlignment) (pv : Path × Value) =>
          match resolve (copyArena g) a.new pv.1 with
          | some nv => tryAlign (copyArena g) a pv.2 nv
          | none => a)
        ⟨root, shiftValue g.length root, []⟩).old,
      (newFromOld ((pvList g (graphFuel (copyArena g)) root).foldl
        (fun (a : DiffAlignment) (pv : Path × Value) =>
          match resolve (copyArena g) a.new pv.1 with
          | some nv => tryAlign (copyArena g) a pv.2 nv
          | none => a)
        ⟨root, shiftValue g.length root, []⟩) ho).isSome = true := by
    intro ho hm
    rw [hP.1, reachList_copy_low hw _ hv] at hm
    have hreach := (reachList_mem_iff hw hfo2 ho).mp hm
    have hmem : (ho, ho + g.length) ∈ ((pvList g (graphFuel (copyArena g))
        root).foldl
        (fun (a : DiffAlignment) (pv : Path × Value) =>
          match resolve (copyArena g) a.new pv.1 with
          | some nv => tryAlign (copyArena g) a pv.2 nv
          | none => a)
        ⟨root, shiftValue g.length root, []⟩).table :=
      (hP.2.2 (ho, ho + g.length)).mpr ⟨ho, rfl,
        Or.inr ((hmemof ho).mp hreach)⟩
    unfold newFromOld
    rw [Option.isSome_map']
    exact List.find?_isSome.mpr ⟨(ho, ho + g.length), hmem, by simp⟩
  constructor
  · unfold alignHeuristically
    rw [alignById_copy g hw root hv, hpath_eq, eqPhase_skip _ _ hall]
    exact hP.1
  · intro x
    unfold alignHeuristically
    rw [alignById_copy g hw root hv, hpath_eq, eqPhase_skip _ _ hall]
    rw [hP.2.2 x]
    constructor
    · rintro ⟨h, hx, hf | hm⟩
      · cases hf
      · exact ⟨h, hx, (hmemof h).mpr hm⟩
    · rintro ⟨h, hx, hre⟩
      exact ⟨h, hx, Or.inr ((hmemof h).mp hre)⟩

theorem newFromOld_copy_pair {g : Arena} {A : DiffAlignment}
    (hshape : ∀ x ∈ A.table, ∃ h, x = (h, h + g.length))
    {c0 : Nat} (hmem : (c0, c0 + g.length) ∈ A.table) :
    newFromOld A c0 = some (c0 + g.length) := by
  unfold newFromOld
  have hsome : (A.table.find? (fun pr => pr.1 == c0)).isSome = true :=
    List.find?_isSome.mpr ⟨(c0, c0 + g.length), hmem, by simp⟩
  rcases Option.isSome_iff_exists.mp hsome with ⟨pr, hfind⟩
  rcases hshape pr (List.mem_of_find?_eq_some hfind) with ⟨h, hx⟩
  have hp1 : pr.1 = c0 := by simpa using List.find?_some hfind
  have hh : h = c0 := by
    rw [hx] at hp1
    exact hp1
  rw [hfind, hx, hh]
  rfl

/-- Processing an aligned pair consisting of a node and its deep copy emits
nothing and leaves the builder state unchanged. -/
theorem processPair_copy (g : Arena) (hw : wfArena g = true) (root : Value)
    (hv : valueBound g.length root = true) (A : DiffAlignment)
    (hchar : ∀ x, x ∈ A.table ↔ ∃ h, x = (h, h + g.length) ∧
      ∃ p, resolve g root p = some (.node h))
    (s : BuilderState) (h0 : Nat) (p0 : Path)
    (hres : resolve g root p0 = some (.node h0)) :
    processPair (copyArena g) A s h0 (h0 + g.length) = s := by
  have hshape : ∀ x ∈ A.table, ∃ h, x = (h, h + g.length) := by
    intro x hx
    rcases (hchar x).mp hx with ⟨h, hxe, _⟩
    exact ⟨h, hxe⟩
  have hb0 : h0 < g.length := by
    have := resolve_bound hw p0 root hv _ hres
    simpa [valueBound] using this
  unfold processPair
  rw [copyArena_get_low hb0, copyArena_get_high]
  cases hg : g[h0]? with
  | none => rfl
  | some c =>
    have hnodup := (wfArena_spec hw hg).2
    have hchild_aoe : ∀ (st : PathStep) (cv : Value), (st, cv) ∈ childSteps c →
        alignedOrEqual A cv (shiftValue g.length cv) = true := by
      intro st cv hmem2
      cases cv with
      | leaf x => simp [alignedOrEqual, shiftValue]
      | node c0 =>
        have hreach : resolve g root (p0 ++ [st]) = some (.node c0) :=
          resolve_child hw hres hg hmem2
        have hmemA : (c0, c0 + g.length) ∈ A.table :=
          (hchar _).mpr ⟨c0, rfl, ⟨p0 ++ [st], hreach⟩⟩
        simp only [alignedOrEqual, shiftValue]
        rw [newFromOld_copy_pair hshape hmemA]
        simp
    cases c with
    | compound k tag args =>
      simp only [contentKeysNodup, slotKeys, decide_eq_true_eq] at hnodup
      simp only [shiftContent, Option.map_some']
      rw [if_pos (show (tag == tag) = true by simp)]
      have hstep1 : ∀ an ∈ args.map (fun a => (a.1, shiftValue g.length a.2)),
          processChild (copyArena g) A s
            ((firstPathOf (copyArena g) (graphFuel (copyArena g)) A.new
              (h0 + g.length)).getD [])
            (.attr an.1)
            ((args.find? (fun ao => ao.1 == an.1)).map (fun ao => ao.2))
            (some an.2) = s := by
        intro an han
        rcases List.mem_map.mp han with ⟨a0, ha0, heq⟩
        rcases a0 with ⟨n0, v0⟩
        have h1 : an.1 = n0 := by rw [← heq]
        have h2 : an.2 = shiftValue g.length v0 := by rw [← heq]
        have hfind : args.find? (fun ao => ao.1 == an.1) = some (n0, v0) := by
          rw [h1]
          exact find?_eq_some_of_mem_nodup ha0 hnodup
        rw [hfind, h2]
        have haoe := hchild_aoe (.attr n0) v0
          (List.mem_map.mpr ⟨(n0, v0), ha0, rfl⟩)
        simp only [processChild, Option.map_some']
        rw [if_pos haoe]
      have hstep2 : ∀ ao ∈ args,
          (if ((args.map (fun a => (a.1, shiftValue g.length a.2))).find?
              (fun an => an.1 == ao.1)).isSome then s
            else addChange s
              (((firstPathOf (copyArena g) (graphFuel (copyArena g)) A.new
                (h0 + g.length)).getD []) ++ [.attr ao.1]) .deleteValue) = s := by
        intro ao hao
        rw [if_pos]
        exact List.find?_isSome.mpr ⟨(ao.1, shiftValue g.length ao.2),
          List.mem_map.mpr ⟨ao, hao, rfl⟩, by simp⟩
      rw [foldl_fixed_of_self _ _ s hstep1]
      exact foldl_fixed_of_self _ _ s hstep2
    | sequence eo =>
      simp only [shiftContent, Option.map_some']
      rw [List.length_map, Nat.max_self]
      have hstep : ∀ i ∈ List.range eo.length,
          processChild (copyArena g) A s
            ((firstPathOf (copyArena g) (graphFuel (copyArena g)) A.new
              (h0 + g.length)).getD [])
            (.index i) eo[i]? (eo.map (shiftValue g.length))[i]? = s := by
        intro i hi
        rw [List.mem_range] at hi
        rcases List.getElem?_eq_some.mpr ⟨hi, rfl⟩ with hgot
        have hev : eo[i]? = some eo[i] := hgot
        rw [hev, List.getElem?_map, hev]
        have haoe := hchild_aoe (.index i) eo[i]
          (mem_seqSteps.mpr ⟨i, by rw [Nat.zero_add], hev⟩)
        simp only [processChild, Option.map_some']
        rw [if_pos haoe]
      exact foldl_fixed_of_self _ _ s hstep
    | mapping entries =>
      simp only [contentKeysNodup, slotKeys, decide_eq_true_eq] at hnodup
      simp only [shiftContent, Option.map_some']
      have hstep1 : ∀ kn ∈ entries.map (fun a => (a.1, shiftValue g.length a.2)),
          processChild (copyArena g) A s
            ((firstPathOf (copyArena g) (graphFuel (copyArena g)) A.new
              (h0 + g.length)).getD [])
            (.key kn.1)
            ((entries.find? (fun ko => ko.1 == kn.1)).map (fun ko => ko.2))
            (some kn.2) = s := by
        intro kn hkn
        rcases List.mem_map.mp hkn with ⟨a0, ha0, heq⟩
        rcases a0 with ⟨n0, v0⟩
        have h1 : kn.1 = n0 := by rw [← heq]
        have h2 : kn.2 = shiftValue g.length v0 := by rw [← heq]
        have hfind : entries.find? (fun ko => ko.1 == kn.1) = some (n0, v0) := by
          rw [h1]
          exact find?_eq_some_of_mem_nodup ha0 hnodup
        rw [hfind, h2]
        have haoe := hchild_aoe (.key n0) v0
          (List.mem_map.mpr ⟨(n0, v0), ha0, rfl⟩)
        simp only [processChild, Option.map_some']
        rw [if_pos haoe]
      have hstep2 : ∀ ko ∈ entries,
          (if ((entries.map (fun a => (a.1, shiftValue g.length a.2))).find?
              (fun kn => kn.1 == ko.1)).isSome then s
            else addChange s
              (((firstPathOf (copyArena g) (graphFuel (copyArena g)) A.new
                (h0 + g.length)).getD []) ++ [.key ko.1]) .deleteValue) = s := by
        intro ko hko
        rw [if_pos]
        exact List.find?_isSome.mpr ⟨(ko.1, shiftValue g.length ko.2),
          List.mem_map.mpr ⟨ko, hko, rfl⟩, by simp⟩
      rw [foldl_fixed_of_self _ _ s hstep1]
      exact foldl_fixed_of_self _ _ s hstep2

/-! ## Claim C3: diffing against a deep copy yields the empty diff -/

/-- C3: building a diff between a graph and a structurally- and value-equal
deep copy sharing no node identity, over `align_heuristically`, yields a
`Diff` with no changes and no new shared values; and in general a child
position whose values are aligned-or-equal contributes no operation. -/
theorem deep_copy_diff_empty (g : Arena) (root : Value) (hw : wfArena g = true)
    (hv : valueBound g.length root = true) :
    ((build_diff_from_alignment (copyArena g)
        (alignHeuristically (copyArena g) root
          (shiftValue g.length root))).changes = [] ∧
     (build_diff_from_alignment (copyArena g)
        (alignHeuristically (copyArena g) root
          (shiftValue g.length root))).new_shared_values = []) ∧
    (∀ (g9 : Arena) (a : DiffAlignment) (s : BuilderState) (p : Path)
       (st : PathStep) (ov nv : Value), alignedOrEqual a ov nv = true →
       processChild g9 a s p st (some ov) (some nv) = s) := by
  constructor
  · have hchar := alignHeuristically_copy_char g hw root hv
    have hbs : buildState (copyArena g)
        (alignHeuristically (copyArena g) root (shiftValue g.length root)) =
        initialState := by
      unfold buildState
      apply foldl_fixed
      intro s pr hpr
      rcases (hchar.2 pr).mp hpr with ⟨h, hx, ⟨p, hp⟩⟩
      rw [hx]
      exact processPair_copy g hw root hv _ hchar.2 s h p hp
    constructor
    · show (buildState (copyArena g) (alignHeuristically (copyArena g) root
        (shiftValue g.length root))).changes = []
      rw [hbs]
      rfl
    · show (buildState (copyArena g) (alignHeuristically (copyArena g) root
        (shiftValue g.length root))).newSharedValues = []
      rw [hbs]
      rfl
  · intro g9 a s p st ov nv haoe
    simp [processChild, haoe]

/-- C3 witness at a concrete graph. -/
theorem deep_copy_diff_empty_witness :
    (build_diff_from_alignment (copyArena [.sequence [.leaf 3]])
        (alignHeuristically (copyArena [.sequence [.leaf 3]]) (.node 0)
          (shiftValue 1 (.node 0)))).changes = [] ∧
    (build_diff_from_alignment (copyArena [.sequence [.leaf 3]])
        (alignHeuristically (copyArena [.sequence [.leaf 3]]) (.node 0)
          (shiftValue 1 (.node 0)))).new_shared_values = [] :=
  (deep_copy_diff_empty [.sequence [.leaf 3]] (.node 0) (by decide) (by decide)).1

end FiddleDiff
